import Mathlib

/-!
Verification of the scatter-gather I/O buffer module (`iovec.rs`).

The module is shallowly embedded: guest memory is a byte function with a
size bound, a descriptor is an `(addr, len, write-only flag)` record, and an
`IoVecBuffer`/`IoVecBufferMut` holds the flattened list of segment contents
(each segment a `List Nat` of bytes) together with the cached total length.
The vectored I/O endpoints (`WriteVolatile` sinks and `ReadVolatile`
sources) are modeled as state machines whose single-call responses can be
`ok`, `interrupted` or an I/O error; the source's unbounded
retry-on-interruption loop is modeled with explicit retry fuel, `none`
standing for the code still spinning on interruptions.
-/

/-- Byte values (contents of guest memory). -/
abbrev Byte := Nat

/-- The guest memory collaborator: a byte store with a size bound.
`get_slice` succeeds exactly when the whole range fits. -/
structure GuestMem where
  size : Nat
  bytes : Nat → Byte

/-- Model of `GuestMemory::get_slice(addr, len)`: succeeds iff the whole
range `[addr, addr+len)` is backed, returning the bytes of that range. -/
def GuestMem.get_slice (m : GuestMem) (addr len : Nat) : Option (List Byte) :=
  if addr + len ≤ m.size then some ((List.range len).map fun i => m.bytes (addr + i))
  else none

/-- A virtio descriptor as seen by `iovec.rs`: guest address, length and the
`VIRTQ_DESC_F_WRITE` direction flag (`is_write_only`). -/
structure Descriptor where
  addr : Nat
  len : Nat
  writeOnly : Bool
deriving DecidableEq, Repr

/-- `IoVecError` from the source. -/
inductive IoVecError where
  /-- Tried to create an `IoVec` from a write-only descriptor chain -/
  | WriteOnlyDescriptor
  /-- Tried to create an `IoVecMut` from a read-only descriptor chain -/
  | ReadOnlyDescriptor
  /-- Wrapped guest memory (translation) error -/
  | GuestMemory
deriving DecidableEq, Repr

/-- `IoVecBuffer`: the flattened list of segment contents plus the cached
total length.  A segment's bytes stand for the guest memory range the
corresponding `iovec` points at. -/
structure IoVecBuffer where
  vecs : List (List Byte)
  len : Nat
deriving DecidableEq, Repr

/-- `IoVecBufferMut`: same shape as `IoVecBuffer` (the source duplicates the
struct for the write direction). -/
structure IoVecBufferMut where
  vecs : List (List Byte)
  len : Nat
deriving DecidableEq, Repr

/-- Sum of the segment lengths of a flattened segment list. -/
def totalLen (vecs : List (List Byte)) : Nat :=
  (vecs.map List.length).sum

/-- `IoVecBuffer::from_descriptor_chain`: traverse the chain; fail with
`WriteOnlyDescriptor` on the first write-only descriptor, translate each
descriptor via `get_slice` (propagating failure as `GuestMemory`), and
accumulate segments and total length. -/
def IoVecBuffer.from_descriptor_chain (m : GuestMem) :
    List Descriptor → Except IoVecError IoVecBuffer
  | [] => .ok ⟨[], 0⟩
  | d :: rest =>
    if d.writeOnly then .error .WriteOnlyDescriptor
    else
      match m.get_slice d.addr d.len with
      | none => .error .GuestMemory
      | some data =>
        match IoVecBuffer.from_descriptor_chain m rest with
        | .error e => .error e
        | .ok b => .ok ⟨data :: b.vecs, d.len + b.len⟩

/-- Observable collaborator events during `IoVecBufferMut` construction:
a dirty-bitmap mark for `[start, start+len)` of descriptor `idx`, and the
raw-pointer extraction for descriptor `idx`. -/
inductive MutEvent where
  | markDirty (idx start len : Nat)
  | getPtr (idx : Nat)
deriving DecidableEq, Repr

/-- Whether an event is a dirty-bitmap mark. -/
def MutEvent.isMark : MutEvent → Bool
  | .markDirty _ _ _ => true
  | .getPtr _ => false

/-- Worker for `IoVecBufferMut::from_descriptor_chain`, also recording the
trace of collaborator events (dirty marks are issued even when a later
descriptor aborts the construction, as in the source). -/
def IoVecBufferMut.from_descriptor_chain_aux (m : GuestMem) :
    List Descriptor → Nat → List MutEvent × Except IoVecError IoVecBufferMut
  | [], _ => ([], .ok ⟨[], 0⟩)
  | d :: rest, idx =>
    if !d.writeOnly then ([], .error .ReadOnlyDescriptor)
    else
      match m.get_slice d.addr d.len with
      | none => ([], .error .GuestMemory)
      | some data =>
        match IoVecBufferMut.from_descriptor_chain_aux m rest (idx + 1) with
        | (evs, .error e) =>
          (.markDirty idx 0 d.len :: .getPtr idx :: evs, .error e)
        | (evs, .ok b) =>
          (.markDirty idx 0 d.len :: .getPtr idx :: evs,
            .ok ⟨data :: b.vecs, d.len + b.len⟩)

/-- `IoVecBufferMut::from_descriptor_chain`: fail with `ReadOnlyDescriptor`
on the first descriptor that is not write-only; translate each descriptor,
mark its whole extent `[0, len)` dirty before extracting the raw pointer,
and accumulate segments and total length.  Returns the event trace next to
the result. -/
def IoVecBufferMut.from_descriptor_chain (m : GuestMem) (descs : List Descriptor) :
    List MutEvent × Except IoVecError IoVecBufferMut :=
  IoVecBufferMut.from_descriptor_chain_aux m descs 0

deriving instance DecidableEq for Except

/-- Response of one `WriteVolatile::write_volatile` call on the sink
endpoint: `ok n` bytes accepted, transient interruption, or an I/O error
carrying an opaque payload. -/
inductive SinkResp where
  | ok (n : Nat)
  | intr
  | err (e : Nat)
deriving DecidableEq, Repr

/-- A `WriteVolatile` sink endpoint with state `σ`: one call takes the
slice passed to `write_volatile` and yields a response plus the new state. -/
structure ByteSink (σ : Type) where
  step : σ → List Byte → SinkResp × σ

/-- Response of one `ReadVolatile::read_volatile` call on the source
endpoint: `ok bs` (the source fills the slice's prefix with `bs`,
clipped to the slice length), transient interruption, or an I/O error. -/
inductive SrcResp where
  | ok (bs : List Byte)
  | intr
  | err (e : Nat)
deriving DecidableEq, Repr

/-- A `ReadVolatile` source endpoint with state `σ`: one call takes the
length of the slice to fill and yields a response plus the new state. -/
structure ByteSrc (σ : Type) where
  step : σ → Nat → SrcResp × σ

/-- Result of the retry-on-interruption loop around one sink call:
the endpoint invocations made (slice passed, response), the final endpoint
state and the loop's outcome (`ok` bytes moved or the surfaced error).
`none` models the loop still spinning after `fuel` interruptions. -/
def retryW {σ : Type} (ep : ByteSink σ) (slice : List Byte) :
    Nat → σ → Option (List (List Byte × SinkResp) × σ × Except Nat Nat)
  | fuel, s =>
    match ep.step s slice with
    | (.ok n, s1) => some ([(slice, .ok n)], s1, .ok n)
    | (.err e, s1) => some ([(slice, .err e)], s1, .error e)
    | (.intr, s1) =>
      match fuel with
      | 0 => none
      | fuel + 1 =>
        (retryW ep slice fuel s1).map fun (tr, s2, r) => ((slice, .intr) :: tr, s2, r)

/-- Retry loop around one source call; `ok bs` carries the raw bytes the
source produced (the caller clips them to the slice length). -/
def retryR {σ : Type} (ep : ByteSrc σ) (sliceLen : Nat) :
    Nat → σ → Option (List (Nat × SrcResp) × σ × Except Nat (List Byte))
  | fuel, s =>
    match ep.step s sliceLen with
    | (.ok bs, s1) => some ([(sliceLen, .ok bs)], s1, .ok bs)
    | (.err e, s1) => some ([(sliceLen, .err e)], s1, .error e)
    | (.intr, s1) =>
      match fuel with
      | 0 => none
      | fuel + 1 =>
        (retryR ep sliceLen fuel s1).map fun (tr, s2, r) => ((sliceLen, .intr) :: tr, s2, r)

/-- Output of `IoVecBuffer::read_volatile_at`: the trace of endpoint
invocations, the returned `Result` (`ok` total bytes or the error), and the
final sink state. -/
structure RVOut (σ : Type) where
  trace : List (List Byte × SinkResp)
  res : Except Nat Nat
  sink : σ
deriving DecidableEq, Repr

/-- Output of `IoVecBufferMut::write_volatile_at`: trace, returned
`Result`, the updated segment contents, and the final source state. -/
structure WVOut (σ : Type) where
  trace : List (Nat × SrcResp)
  res : Except Nat Nat
  vecs : List (List Byte)
  src : σ
deriving DecidableEq, Repr

/-- The loop of `IoVecBuffer::read_volatile_at`: walk segments in order,
skipping segments wholly before `offset`; slice each covered segment at the
residual offset, clip it to the remaining budget `len`, issue one
(retried) sink call per slice; a short reply stops the walk, an error
aborts with it.  `total` is the running byte total. -/
def readVolLoop {σ : Type} (ep : ByteSink σ) (fuel : Nat) :
    List (List Byte) → Nat → Nat → σ → Nat → Option (RVOut σ)
  | [], _, _, s, total => some ⟨[], .ok total, s⟩
  | iov :: rest, offset, len, s, total =>
    if len = 0 then some ⟨[], .ok total, s⟩
    else if iov.length ≤ offset then
      readVolLoop ep fuel rest (offset - iov.length) len s total
    else
      let slice0 := iov.drop offset
      let slice := if len < slice0.length then slice0.take len else slice0
      match retryW ep slice fuel s with
      | none => none
      | some (tr, s1, .error e) => some ⟨tr, .error e, s1⟩
      | some (tr, s1, .ok n) =>
        if n < slice.length then some ⟨tr, .ok (total + n), s1⟩
        else
          match readVolLoop ep fuel rest 0 (len - n) s1 (total + n) with
          | none => none
          | some out => some ⟨tr ++ out.trace, out.res, out.sink⟩

/-- `IoVecBuffer::read_volatile_at`. -/
def IoVecBuffer.read_volatile_at {σ : Type} (b : IoVecBuffer) (ep : ByteSink σ)
    (s : σ) (offset len fuel : Nat) : Option (RVOut σ) :=
  readVolLoop ep fuel b.vecs offset len s 0

/-- The loop of `IoVecBufferMut::write_volatile_at`: same walk as the read
direction, but each covered slice is filled from the source; the source's
bytes (clipped to the slice length) replace the segment's bytes at the
residual offset. -/
def writeVolLoop {σ : Type} (ep : ByteSrc σ) (fuel : Nat) :
    List (List Byte) → Nat → Nat → σ → Nat → Option (WVOut σ)
  | [], _, _, s, total => some ⟨[], .ok total, [], s⟩
  | iov :: rest, offset, len, s, total =>
    if len = 0 then some ⟨[], .ok total, iov :: rest, s⟩
    else if iov.length ≤ offset then
      match writeVolLoop ep fuel rest (offset - iov.length) len s total with
      | none => none
      | some out => some ⟨out.trace, out.res, iov :: out.vecs, out.src⟩
    else
      let sliceLen := min (iov.length - offset) len
      match retryR ep sliceLen fuel s with
      | none => none
      | some (tr, s1, .error e) => some ⟨tr, .error e, iov :: rest, s1⟩
      | some (tr, s1, .ok bs) =>
        let written := bs.take sliceLen
        let n := written.length
        let iov1 := iov.take offset ++ written ++ iov.drop (offset + n)
        if n < sliceLen then some ⟨tr, .ok (total + n), iov1 :: rest, s1⟩
        else
          match writeVolLoop ep fuel rest 0 (len - n) s1 (total + n) with
          | none => none
          | some out => some ⟨tr ++ out.trace, out.res, iov1 :: out.vecs, out.src⟩

/-- `IoVecBufferMut::write_volatile_at`. -/
def IoVecBufferMut.write_volatile_at {σ : Type} (b : IoVecBufferMut) (ep : ByteSrc σ)
    (s : σ) (offset len fuel : Nat) : Option (WVOut σ) :=
  writeVolLoop ep fuel b.vecs offset len s 0

/-- The `WriteVolatile` impl of `&mut [u8]` (the destination of
`read_at`): state is (remaining capacity, bytes received so far); each call
accepts `min (slice length) capacity` bytes, infallibly. -/
def sliceSink : ByteSink (Nat × List Byte) :=
  ⟨fun st slice =>
    let n := min slice.length st.1
    (.ok n, (st.1 - n, st.2 ++ slice.take n))⟩

/-- The `ReadVolatile` impl of `&[u8]` (the source of `write_at`): state is
the remaining source bytes; each call yields `min (slice length) remaining`
bytes and advances, infallibly. -/
def sliceSrc : ByteSrc (List Byte) :=
  ⟨fun s sliceLen => (.ok (s.take sliceLen), s.drop (min s.length sliceLen))⟩

/-- `IoVecBuffer::read_at(buf, offset)` for a destination of length
`bufLen`: `none` when `offset >= len`, otherwise delegate to
`read_volatile_at` with budget `min bufLen (len - offset)` and an
infallible slice sink; returns the byte count and the bytes delivered into
the destination's prefix. -/
def IoVecBuffer.read_at (b : IoVecBuffer) (bufLen offset : Nat) :
    Option (Nat × List Byte) :=
  if offset < b.len then
    match readVolLoop sliceSink 0 b.vecs offset (min bufLen (b.len - offset)) (bufLen, []) 0 with
    | some out =>
      match out.res with
      | .ok n => some (n, out.sink.2)
      | .error _ => none
    | none => none
  else none

/-- `IoVecBufferMut::write_at(buf, offset)`: `none` when `offset >= len`,
otherwise delegate to `write_volatile_at` with budget
`min buf.length (len - offset)` and the slice source `buf`; returns the
byte count and the updated segment contents. -/
def IoVecBufferMut.write_at (b : IoVecBufferMut) (buf : List Byte) (offset : Nat) :
    Option (Nat × List (List Byte)) :=
  if offset < b.len then
    match writeVolLoop sliceSrc 0 b.vecs offset (min buf.length (b.len - offset)) buf 0 with
    | some out =>
      match out.res with
      | .ok n => some (n, out.vecs)
      | .error _ => none
    | none => none
  else none

theorem read_at_sanity :
    IoVecBuffer.read_at ⟨[[10, 11, 12], [20, 21]], 5⟩ 3 1 = some (3, [11, 12, 20]) := by
  decide

theorem write_at_sanity :
    IoVecBufferMut.write_at ⟨[[10, 11, 12], [20, 21]], 5⟩ [7, 8] 2 =
      some (2, [[10, 11, 7], [8, 21]]) := by
  decide

theorem read_at_past_end_sanity :
    IoVecBuffer.read_at ⟨[[10, 11, 12], [20, 21]], 5⟩ 3 5 = none := by decide

theorem from_descriptor_chain_sanity :
    IoVecBuffer.from_descriptor_chain ⟨4, fun i => i⟩ [⟨0, 2, false⟩, ⟨2, 2, false⟩] =
      .ok ⟨[[0, 1], [2, 3]], 4⟩ := by
  decide

theorem totalLen_nil : totalLen [] = 0 := rfl

theorem totalLen_cons (iov : List Byte) (rest : List (List Byte)) :
    totalLen (iov :: rest) = iov.length + totalLen rest := by
  simp [totalLen]

/-- With a zero budget the read loop makes no endpoint call. -/
theorem readVolLoop_len_zero {σ : Type} (ep : ByteSink σ) (fuel : Nat)
    (vecs : List (List Byte)) (offset : Nat) (s : σ) (total : Nat) :
    readVolLoop ep fuel vecs offset 0 s total = some ⟨[], .ok total, s⟩ := by
  cases vecs <;> simp [readVolLoop]

/-- An offset at or past the total length skips every segment: the read
loop makes no endpoint call and returns the running total. -/
theorem readVolLoop_past_end {σ : Type} (ep : ByteSink σ) (fuel : Nat) :
    ∀ (vecs : List (List Byte)) (offset len : Nat) (s : σ) (total : Nat),
      totalLen vecs ≤ offset →
      readVolLoop ep fuel vecs offset len s total = some ⟨[], .ok total, s⟩
  | [], _, _, _, _, _ => by simp [readVolLoop]
  | iov :: rest, offset, len, s, total, h => by
    rw [totalLen_cons] at h
    have h1 : iov.length ≤ offset := by omega
    simp only [readVolLoop]
    split
    · rfl
    · exact readVolLoop_past_end ep fuel rest _ len s total (by omega)

/-- With a zero budget the write loop makes no endpoint call and leaves
the segments untouched. -/
theorem writeVolLoop_len_zero {σ : Type} (ep : ByteSrc σ) (fuel : Nat)
    (vecs : List (List Byte)) (offset : Nat) (s : σ) (total : Nat) :
    writeVolLoop ep fuel vecs offset 0 s total = some ⟨[], .ok total, vecs, s⟩ := by
  cases vecs <;> simp [writeVolLoop]

/-- An offset at or past the total length skips every segment: the write
loop makes no endpoint call and leaves the segments untouched. -/
theorem writeVolLoop_past_end {σ : Type} (ep : ByteSrc σ) (fuel : Nat) :
    ∀ (vecs : List (List Byte)) (offset len : Nat) (s : σ) (total : Nat),
      totalLen vecs ≤ offset →
      writeVolLoop ep fuel vecs offset len s total = some ⟨[], .ok total, vecs, s⟩
  | [], _, _, _, _, _ => by simp [writeVolLoop]
  | iov :: rest, offset, len, s, total, h => by
    rw [totalLen_cons] at h
    have h1 : iov.length ≤ offset := by omega
    simp only [writeVolLoop]
    split
    · rfl
    · rw [writeVolLoop_past_end ep fuel rest (offset - iov.length) len s total (by omega)]

/-- The slice sink never interrupts nor fails: one retry-loop call accepts
`min (slice length) capacity` bytes on the first attempt. -/
theorem retryW_sliceSink (slice : List Byte) (fuel cap : Nat) (acc : List Byte) :
    retryW sliceSink slice fuel (cap, acc) =
      some ([(slice, .ok (min slice.length cap))],
        (cap - min slice.length cap, acc ++ slice.take (min slice.length cap)),
        .ok (min slice.length cap)) := by
  simp [retryW, sliceSink]

/-- The slice source never interrupts nor fails: one retry-loop call
produces the next `sliceLen` source bytes on the first attempt. -/
theorem retryR_sliceSrc (sliceLen fuel : Nat) (s : List Byte) :
    retryR sliceSrc sliceLen fuel s =
      some ([(sliceLen, .ok (s.take sliceLen))],
        s.drop (min s.length sliceLen), .ok (s.take sliceLen)) := by
  simp [retryR, sliceSrc]

/-- Unfolding equation of the read loop at a cons cell. -/
theorem readVolLoop_cons_eq {σ : Type} (ep : ByteSink σ) (fuel : Nat) (iov : List Byte)
    (rest : List (List Byte)) (offset len : Nat) (s : σ) (total : Nat) :
    readVolLoop ep fuel (iov :: rest) offset len s total =
      if len = 0 then some ⟨[], .ok total, s⟩
      else if iov.length ≤ offset then
        readVolLoop ep fuel rest (offset - iov.length) len s total
      else
        let slice0 := iov.drop offset
        let slice := if len < slice0.length then slice0.take len else slice0
        match retryW ep slice fuel s with
        | none => none
        | some (tr, s1, .error e) => some ⟨tr, .error e, s1⟩
        | some (tr, s1, .ok n) =>
          if n < slice.length then some ⟨tr, .ok (total + n), s1⟩
          else
            match readVolLoop ep fuel rest 0 (len - n) s1 (total + n) with
            | none => none
            | some out => some ⟨tr ++ out.trace, out.res, out.sink⟩ := by
  rfl

/-- Unfolding equation of the write loop at a cons cell. -/
theorem writeVolLoop_cons_eq {σ : Type} (ep : ByteSrc σ) (fuel : Nat) (iov : List Byte)
    (rest : List (List Byte)) (offset len : Nat) (s : σ) (total : Nat) :
    writeVolLoop ep fuel (iov :: rest) offset len s total =
      if len = 0 then some ⟨[], .ok total, iov :: rest, s⟩
      else if iov.length ≤ offset then
        match writeVolLoop ep fuel rest (offset - iov.length) len s total with
        | none => none
        | some out => some ⟨out.trace, out.res, iov :: out.vecs, out.src⟩
      else
        let sliceLen := min (iov.length - offset) len
        match retryR ep sliceLen fuel s with
        | none => none
        | some (tr, s1, .error e) => some ⟨tr, .error e, iov :: rest, s1⟩
        | some (tr, s1, .ok bs) =>
          let written := bs.take sliceLen
          let n := written.length
          let iov1 := iov.take offset ++ written ++ iov.drop (offset + n)
          if n < sliceLen then some ⟨tr, .ok (total + n), iov1 :: rest, s1⟩
          else
            match writeVolLoop ep fuel rest 0 (len - n) s1 (total + n) with
            | none => none
            | some out => some ⟨tr ++ out.trace, out.res, iov1 :: out.vecs, out.src⟩ := by
  rfl

/-- The clipped sub-range of a segment tail is a `take`. -/
theorem slice_clip_eq (s0 : List Byte) (len : Nat) :
    (if len < s0.length then s0.take len else s0) = s0.take (min len s0.length) := by
  split
  · rw [min_eq_left (by omega)]
  · rw [min_eq_right (by omega), List.take_length]

/-- Packaging helper: a read-loop result equals a required one up to its
result and sink components. -/
theorem rvout_some_eq {σ : Type} (t : List (List Byte × SinkResp)) (r1 r2 : Except Nat Nat)
    (s1 s2 : σ) (hr : r1 = r2) (hs : s1 = s2) :
    ∃ tr, (some ⟨t, r1, s1⟩ : Option (RVOut σ)) = some ⟨tr, r2, s2⟩ :=
  ⟨t, by rw [hr, hs]⟩

/-- Gluing a full first-segment transfer with the rest of a flattened
transfer: list algebra used by the slice-endpoint evaluations. -/
theorem take_glue (s0 F : List Byte) (len cap A R T : Nat)
    (hA : s0.length = A) (hR : F.length = R) (hT : T = A + R)
    (hcap : min len A ≤ cap) :
    s0.take (min len A) ++
      F.take (min (cap - min len A) (min (len - min len A) (R - 0))) =
    (s0 ++ F).take (min cap (min len T)) := by
  subst hA
  subst hR
  subst hT
  rw [List.take_append_eq_append_take]
  by_cases hfull : s0.length ≤ len
  · rw [(show min len s0.length = s0.length from by omega), List.take_length,
      List.take_of_length_le
        (show s0.length ≤ min cap (min len (s0.length + F.length)) from by omega)]
    congr 1
    congr 1
    omega
  · rw [(show min (cap - min len s0.length)
          (min (len - min len s0.length) (F.length - 0)) = 0 from by omega),
      List.take_zero, List.append_nil,
      (show min cap (min len (s0.length + F.length)) = len from by omega),
      Nat.sub_eq_zero_of_le (show len ≤ s0.length from by omega),
      List.take_zero, List.append_nil,
      (show min len s0.length = len from by omega)]

/-- Full evaluation of the read loop against the infallible slice sink:
it moves `min cap (min len (totalLen vecs - offset))` bytes, appending the
flattened bytes starting at `offset` to the sink accumulator. -/
theorem readVolLoop_sliceSink :
    ∀ (vecs : List (List Byte)) (offset len cap : Nat) (acc : List Byte)
      (total fuel : Nat),
      ∃ tr, readVolLoop sliceSink fuel vecs offset len (cap, acc) total =
        some ⟨tr, .ok (total + min cap (min len (totalLen vecs - offset))),
          (cap - min cap (min len (totalLen vecs - offset)),
            acc ++ (vecs.flatten.drop offset).take
              (min cap (min len (totalLen vecs - offset))))⟩
  | [], offset, len, cap, acc, total, fuel => by
    refine ⟨[], ?_⟩
    simp [readVolLoop, totalLen]
  | iov :: rest, offset, len, cap, acc, total, fuel => by
    rw [readVolLoop_cons_eq]
    by_cases h0 : len = 0
    · subst h0
      refine ⟨[], ?_⟩
      simp
    rw [if_neg h0]
    by_cases h1 : iov.length ≤ offset
    · -- the segment lies wholly before the offset and is skipped
      rw [if_pos h1]
      obtain ⟨tr, ih⟩ := readVolLoop_sliceSink rest (offset - iov.length) len cap acc total fuel
      refine ⟨tr, ?_⟩
      rw [ih]
      have hk : min cap (min len (totalLen rest - (offset - iov.length))) =
          min cap (min len (totalLen (iov :: rest) - offset)) := by
        rw [totalLen_cons]; omega
      have hfl : rest.flatten.drop (offset - iov.length) =
          (iov :: rest).flatten.drop offset := by
        rw [List.flatten_cons, List.drop_append_eq_append_drop,
          List.drop_eq_nil_of_le h1, List.nil_append]
      rw [hk, hfl]
    · -- the segment is (partially) covered
      rw [if_neg h1]
      simp only [slice_clip_eq, retryW_sliceSink]
      have hS : (iov.drop offset).length = iov.length - offset := List.length_drop offset iov
      have hflat : (iov :: rest).flatten.drop offset =
          iov.drop offset ++ rest.flatten := by
        rw [List.flatten_cons, List.drop_append_eq_append_drop,
          Nat.sub_eq_zero_of_le (by omega), List.drop_zero]
      simp only [List.length_take, List.length_drop]
      rw [(show min (min len (iov.length - offset)) (iov.length - offset) =
            min len (iov.length - offset) from by omega)]
      by_cases hcap : cap < min len (iov.length - offset)
      · -- the sink accepts fewer bytes than the sub-range: short stop
        rw [if_pos (show min (min len (iov.length - offset)) cap <
              min len (iov.length - offset) from by omega),
          (show min (min len (iov.length - offset)) cap = cap from by omega),
          (show min cap (min len (totalLen (iov :: rest) - offset)) = cap from by
            rw [totalLen_cons]; omega),
          hflat]
        have htake : ((iov.drop offset).take (min len (iov.length - offset))).take cap =
            (iov.drop offset ++ rest.flatten).take cap := by
          rw [List.take_take, List.take_append_eq_append_take,
            Nat.sub_eq_zero_of_le (show cap ≤ (iov.drop offset).length from by omega),
            List.take_zero, List.append_nil]
          congr 1
          omega
        rw [htake]
        exact ⟨_, rfl⟩
      · -- the sink accepts the whole sub-range: continue with the next segment
        rw [(show min (min len (iov.length - offset)) cap =
              min len (iov.length - offset) from by omega),
          if_neg (lt_irrefl (min len (iov.length - offset))),
          List.take_take, min_self]
        obtain ⟨tr2, ih⟩ := readVolLoop_sliceSink rest 0
          (len - min len (iov.length - offset))
          (cap - min len (iov.length - offset))
          (acc ++ (iov.drop offset).take (min len (iov.length - offset)))
          (total + min len (iov.length - offset)) fuel
        simp only [ih]
        rw [List.drop_zero]
        refine rvout_some_eq _ _ _ _ _ (congrArg Except.ok (by rw [totalLen_cons]; omega)) ?_
        have hsub : cap - min len (iov.length - offset) -
            min (cap - min len (iov.length - offset))
              (min (len - min len (iov.length - offset)) (totalLen rest - 0)) =
            cap - min cap (min len (totalLen (iov :: rest) - offset)) := by
          rw [totalLen_cons]; omega
        have hR : rest.flatten.length = totalLen rest := by
          simp [totalLen, List.length_flatten]
        have hlist : (acc ++ (iov.drop offset).take (min len (iov.length - offset))) ++
            rest.flatten.take
              (min (cap - min len (iov.length - offset))
                (min (len - min len (iov.length - offset)) (totalLen rest - 0))) =
            acc ++ ((iov :: rest).flatten.drop offset).take
              (min cap (min len (totalLen (iov :: rest) - offset))) := by
          rw [hflat, List.append_assoc]
          congr 1
          exact take_glue (iov.drop offset) rest.flatten len cap (iov.length - offset)
            (totalLen rest) (totalLen (iov :: rest) - offset) hS hR
            (by rw [totalLen_cons]; omega) (by omega)
        rw [hsub, hlist]

/-- Skipped-segment composition for the write-side flatten formula. -/
theorem skip_glue (iov F buf : List Byte) (offset k : Nat) (h1 : iov.length ≤ offset) :
    iov ++ (F.take (offset - iov.length) ++ buf.take k ++
      F.drop ((offset - iov.length) + k)) =
    (iov ++ F).take offset ++ buf.take k ++ (iov ++ F).drop (offset + k) := by
  rw [List.take_append_eq_append_take, List.drop_append_eq_append_drop,
    List.take_of_length_le h1,
    List.drop_eq_nil_of_le (show iov.length ≤ offset + k from by omega),
    List.nil_append,
    (show offset + k - iov.length = (offset - iov.length) + k from by omega)]
  simp [List.append_assoc]

/-- Covered-segment composition when the source ran short inside the
segment. -/
theorem cover_short_glue (iov F w : List Byte) (offset : Nat)
    (hoff : offset ≤ iov.length) (hend : offset + w.length ≤ iov.length) :
    (iov.take offset ++ w ++ iov.drop (offset + w.length)) ++ F =
    (iov ++ F).take offset ++ w ++ (iov ++ F).drop (offset + w.length) := by
  rw [List.take_append_eq_append_take, Nat.sub_eq_zero_of_le hoff, List.take_zero,
    List.append_nil, List.drop_append_eq_append_drop, Nat.sub_eq_zero_of_le hend,
    List.drop_zero]
  simp [List.append_assoc]

/-- Covered-segment composition when the whole sub-range was filled and the
loop continued into the remaining segments. -/
theorem cover_full_glue (iov F buf : List Byte) (offset m k2 : Nat)
    (hoff : offset ≤ iov.length) (hm : offset + m ≤ iov.length)
    (hcase : iov.length = offset + m ∨ k2 = 0) :
    (iov.take offset ++ buf.take m ++ iov.drop (offset + m)) ++
      ((buf.drop m).take k2 ++ F.drop k2) =
    (iov ++ F).take offset ++ buf.take (m + k2) ++
      (iov ++ F).drop (offset + (m + k2)) := by
  rw [List.take_append_eq_append_take, Nat.sub_eq_zero_of_le hoff, List.take_zero,
    List.append_nil, List.take_add, List.drop_append_eq_append_drop]
  rcases hcase with hfull | hk0
  · rw [(show offset + (m + k2) - iov.length = k2 from by omega),
      List.drop_eq_nil_of_le (show iov.length ≤ offset + (m + k2) from by omega),
      List.nil_append, (show offset + m = iov.length from by omega), List.drop_length]
    simp [List.append_assoc]
  · rw [hk0, List.take_zero, List.nil_append, Nat.add_zero,
      Nat.sub_eq_zero_of_le (show offset + m ≤ iov.length from by omega),
      List.drop_zero]
    simp [List.append_assoc]

/-- Full evaluation of the write loop against the infallible slice source:
it moves `min buf.length (min len (totalLen vecs - offset))` bytes of `buf`
into the flattened segments starting at `offset`, leaving the segment
shapes unchanged. -/
theorem writeVolLoop_sliceSrc :
    ∀ (vecs : List (List Byte)) (offset len : Nat) (buf : List Byte) (total fuel : Nat),
      ∃ tr vecs1, writeVolLoop sliceSrc fuel vecs offset len buf total =
        some ⟨tr, .ok (total + min buf.length (min len (totalLen vecs - offset))),
          vecs1, buf.drop (min buf.length (min len (totalLen vecs - offset)))⟩ ∧
        vecs1.map List.length = vecs.map List.length ∧
        vecs1.flatten = vecs.flatten.take offset ++
          buf.take (min buf.length (min len (totalLen vecs - offset))) ++
          vecs.flatten.drop (offset + min buf.length (min len (totalLen vecs - offset)))
  | [], offset, len, buf, total, fuel => by
    refine ⟨[], [], ?_, rfl, ?_⟩
    · simp [writeVolLoop, totalLen]
    · simp [totalLen]
  | iov :: rest, offset, len, buf, total, fuel => by
    by_cases h0 : len = 0
    · subst h0
      refine ⟨[], iov :: rest, ?_, rfl, ?_⟩
      · rw [writeVolLoop_len_zero]
        simp
      · simp [List.take_append_drop]
    rw [writeVolLoop_cons_eq, if_neg h0]
    by_cases h1 : iov.length ≤ offset
    · -- the segment lies wholly before the offset and is skipped
      rw [if_pos h1]
      obtain ⟨tr, vecs1, ih, ihmap, ihflat⟩ :=
        writeVolLoop_sliceSrc rest (offset - iov.length) len buf total fuel
      simp only [ih]
      refine ⟨tr, iov :: vecs1, ?_, ?_, ?_⟩
      · rw [(show min buf.length (min len (totalLen rest - (offset - iov.length))) =
            min buf.length (min len (totalLen (iov :: rest) - offset)) from by
          rw [totalLen_cons]; omega)]
      · simp only [List.map_cons, ihmap]
      · rw [List.flatten_cons, ihflat,
          (show min buf.length (min len (totalLen rest - (offset - iov.length))) =
            min buf.length (min len (totalLen (iov :: rest) - offset)) from by
          rw [totalLen_cons]; omega), List.flatten_cons]
        exact skip_glue iov rest.flatten buf offset _ h1
    · -- the segment is (partially) covered
      rw [if_neg h1]
      simp only [retryR_sliceSrc, List.take_take, min_self, List.length_take]
      by_cases hsrc : buf.length < min (iov.length - offset) len
      · -- the source runs out inside the segment: short stop
        rw [if_pos (show min (min (iov.length - offset) len) buf.length <
              min (iov.length - offset) len from by omega),
          (show min (min (iov.length - offset) len) buf.length = buf.length from by
            omega),
          (show min buf.length (min (iov.length - offset) len) = buf.length from by
            omega),
          List.take_of_length_le
            (show buf.length ≤ min (iov.length - offset) len from by omega),
          (show min buf.length (min len (totalLen (iov :: rest) - offset)) =
            buf.length from by rw [totalLen_cons]; omega)]
        refine ⟨_, _, rfl, ?_, ?_⟩
        · simp only [List.map_cons]
          congr 1
          simp [List.length_take, List.length_drop]
          omega
        · rw [List.flatten_cons, List.flatten_cons, List.take_length]
          exact cover_short_glue iov rest.flatten buf offset (by omega) (by omega)
      · -- the whole sub-range is filled: continue with the next segment
        rw [(show min (min (iov.length - offset) len) buf.length =
              min (iov.length - offset) len from by omega),
          if_neg (lt_irrefl (min (iov.length - offset) len)),
          (show min buf.length (min (iov.length - offset) len) =
              min (iov.length - offset) len from by omega)]
        obtain ⟨tr2, vecs2, ih, ihmap, ihflat⟩ :=
          writeVolLoop_sliceSrc rest 0 (len - min (iov.length - offset) len)
            (buf.drop (min (iov.length - offset) len))
            (total + min (iov.length - offset) len) fuel
        simp only [List.length_drop, List.take_zero, List.nil_append, Nat.zero_add,
          List.drop_zero] at ih ihflat
        simp only [ih]
        rw [List.drop_drop]
        refine ⟨[(min (iov.length - offset) len,
              SrcResp.ok (buf.take (min (iov.length - offset) len)))] ++ tr2,
          (iov.take offset ++ buf.take (min (iov.length - offset) len) ++
              iov.drop (offset + min (iov.length - offset) len)) :: vecs2,
          ?_, ?_, ?_⟩
        · rw [(show total + min (iov.length - offset) len +
                min (buf.length - min (iov.length - offset) len)
                  (min (len - min (iov.length - offset) len) (totalLen rest - 0)) =
              total + min buf.length (min len (totalLen (iov :: rest) - offset)) from by
            rw [totalLen_cons]; omega),
            (show min (iov.length - offset) len +
                min (buf.length - min (iov.length - offset) len)
                  (min (len - min (iov.length - offset) len) (totalLen rest - 0)) =
              min buf.length (min len (totalLen (iov :: rest) - offset)) from by
            rw [totalLen_cons]; omega)]
        · simp only [List.map_cons, ihmap]
          congr 1
          simp [List.length_take, List.length_drop]
          omega
        · rw [List.flatten_cons, List.flatten_cons, ihflat,
            (show min buf.length (min len (totalLen (iov :: rest) - offset)) =
              min (iov.length - offset) len +
                min (buf.length - min (iov.length - offset) len)
                  (min (len - min (iov.length - offset) len) (totalLen rest - 0)) from by
            rw [totalLen_cons]; omega)]
          exact cover_full_glue iov rest.flatten buf offset
            (min (iov.length - offset) len)
            (min (buf.length - min (iov.length - offset) len)
              (min (len - min (iov.length - offset) len) (totalLen rest - 0)))
            (by omega) (by omega) (by omega)

/-- `read_at` below the end: returns exactly `min bufLen (len - offset)`
and delivers the flattened bytes at `[offset, offset + count)`. -/
theorem read_at_eval (b : IoVecBuffer) (hinv : b.len = totalLen b.vecs)
    (bufLen offset : Nat) (h : offset < b.len) :
    b.read_at bufLen offset =
      some (min bufLen (b.len - offset),
        (b.vecs.flatten.drop offset).take (min bufLen (b.len - offset))) := by
  obtain ⟨tr, hrun⟩ := readVolLoop_sliceSink b.vecs offset (min bufLen (b.len - offset))
    bufLen [] 0 0
  unfold IoVecBuffer.read_at
  rw [if_pos h]
  simp only [hrun]
  rw [← hinv]
  rw [(show min bufLen (min (min bufLen (b.len - offset)) (b.len - offset)) =
      min bufLen (b.len - offset) from by omega), Nat.zero_add, List.nil_append]

/-- `read_at` at or past the end returns `none`. -/
theorem read_at_none (b : IoVecBuffer) (bufLen offset : Nat) (h : b.len ≤ offset) :
    b.read_at bufLen offset = none := by
  unfold IoVecBuffer.read_at
  rw [if_neg (by omega)]

/-- `write_at` below the end: writes exactly `min buf.length (len - offset)`
source bytes into the flattened segments at `[offset, offset + count)`,
leaving the segment shapes unchanged. -/
theorem write_at_eval (b : IoVecBufferMut) (hinv : b.len = totalLen b.vecs)
    (buf : List Byte) (offset : Nat) (h : offset < b.len) :
    ∃ vecs1, b.write_at buf offset = some (min buf.length (b.len - offset), vecs1) ∧
      vecs1.map List.length = b.vecs.map List.length ∧
      vecs1.flatten = b.vecs.flatten.take offset ++
        buf.take (min buf.length (b.len - offset)) ++
        b.vecs.flatten.drop (offset + min buf.length (b.len - offset)) := by
  obtain ⟨tr, vecs1, hrun, hmap, hflat⟩ := writeVolLoop_sliceSrc b.vecs offset
    (min buf.length (b.len - offset)) buf 0 0
  unfold IoVecBufferMut.write_at
  rw [if_pos h]
  simp only [hrun]
  rw [← hinv] at hflat ⊢
  rw [(show min buf.length (min (min buf.length (b.len - offset)) (b.len - offset)) =
      min buf.length (b.len - offset) from by omega)] at hflat ⊢
  exact ⟨vecs1, by rw [Nat.zero_add], hmap, hflat⟩

/-- `write_at` at or past the end returns `none`. -/
theorem write_at_none (b : IoVecBufferMut) (buf : List Byte) (offset : Nat)
    (h : b.len ≤ offset) :
    b.write_at buf offset = none := by
  unfold IoVecBufferMut.write_at
  rw [if_neg (by omega)]

/-- Bytes accumulated by the successful responses in a sink-call trace. -/
def sumOkSink (tr : List (List Byte × SinkResp)) : Nat :=
  (tr.map fun p =>
    match p.2 with
    | .ok n => n
    | _ => 0).sum

/-- Indexing into "m interruption entries followed by one final entry". -/
theorem getElem_replicate_append {α : Type} (m : Nat) (a b : α) (k : Nat) :
    (List.replicate m a ++ [b])[k]? =
      if k < m then some a else if k = m then some b else none := by
  by_cases hk : k < m
  · rw [List.getElem?_append_left (by simp; omega), if_pos hk]
    simp [List.getElem?_replicate, hk]
  · rw [List.getElem?_append_right (by simp; omega), if_neg hk]
    by_cases hk2 : k = m
    · subst hk2
      simp
    · rw [if_neg hk2, List.getElem?_eq_none (by simp; omega)]

/-- Unfolding equation of the sink retry loop. -/
theorem retryW_eq {σ : Type} (ep : ByteSink σ) (slice : List Byte) (fuel : Nat) (s : σ) :
    retryW ep slice fuel s =
      match ep.step s slice with
      | (.ok n, s1) => some ([(slice, .ok n)], s1, .ok n)
      | (.err e, s1) => some ([(slice, .err e)], s1, .error e)
      | (.intr, s1) =>
        match fuel with
        | 0 => none
        | fuel + 1 =>
          (retryW ep slice fuel s1).map fun (tr, s2, r) => ((slice, .intr) :: tr, s2, r) := by
  rw [retryW.eq_def]

/-- The sink retry loop on a successful first step. -/
theorem retryW_ok_eq {σ : Type} (ep : ByteSink σ) (slice : List Byte) (fuel : Nat)
    (s s1 : σ) (n : Nat) (hstep : ep.step s slice = (.ok n, s1)) :
    retryW ep slice fuel s = some ([(slice, .ok n)], s1, .ok n) := by
  conv_lhs => rw [retryW_eq]
  rw [hstep]

/-- The sink retry loop on a failing first step. -/
theorem retryW_err_eq {σ : Type} (ep : ByteSink σ) (slice : List Byte) (fuel : Nat)
    (s s1 : σ) (e : Nat) (hstep : ep.step s slice = (.err e, s1)) :
    retryW ep slice fuel s = some ([(slice, .err e)], s1, .error e) := by
  conv_lhs => rw [retryW_eq]
  rw [hstep]

/-- The sink retry loop on an interrupted first step, with fuel left. -/
theorem retryW_intr_eq {σ : Type} (ep : ByteSink σ) (slice : List Byte) (fuel : Nat)
    (s s1 : σ) (hstep : ep.step s slice = (.intr, s1)) :
    retryW ep slice (fuel + 1) s =
      (retryW ep slice fuel s1).map fun (tr, s2, r) => ((slice, .intr) :: tr, s2, r) := by
  conv_lhs => rw [retryW_eq]
  rw [hstep]

/-- The sink retry loop on an interrupted first step, out of fuel. -/
theorem retryW_intr_zero {σ : Type} (ep : ByteSink σ) (slice : List Byte)
    (s s1 : σ) (hstep : ep.step s slice = (.intr, s1)) :
    retryW ep slice 0 s = none := by
  conv_lhs => rw [retryW_eq]
  rw [hstep]

/-- Unfolding equation of the source retry loop. -/
theorem retryR_eq {σ : Type} (ep : ByteSrc σ) (sliceLen : Nat) (fuel : Nat) (s : σ) :
    retryR ep sliceLen fuel s =
      match ep.step s sliceLen with
      | (.ok bs, s1) => some ([(sliceLen, .ok bs)], s1, .ok bs)
      | (.err e, s1) => some ([(sliceLen, .err e)], s1, .error e)
      | (.intr, s1) =>
        match fuel with
        | 0 => none
        | fuel + 1 =>
          (retryR ep sliceLen fuel s1).map fun (tr, s2, r) =>
            ((sliceLen, .intr) :: tr, s2, r) := by
  rw [retryR.eq_def]

/-- The source retry loop on a successful first step. -/
theorem retryR_ok_eq {σ : Type} (ep : ByteSrc σ) (sliceLen : Nat) (fuel : Nat)
    (s s1 : σ) (bs : List Byte) (hstep : ep.step s sliceLen = (.ok bs, s1)) :
    retryR ep sliceLen fuel s = some ([(sliceLen, .ok bs)], s1, .ok bs) := by
  conv_lhs => rw [retryR_eq]
  rw [hstep]

/-- The source retry loop on a failing first step. -/
theorem retryR_err_eq {σ : Type} (ep : ByteSrc σ) (sliceLen : Nat) (fuel : Nat)
    (s s1 : σ) (e : Nat) (hstep : ep.step s sliceLen = (.err e, s1)) :
    retryR ep sliceLen fuel s = some ([(sliceLen, .err e)], s1, .error e) := by
  conv_lhs => rw [retryR_eq]
  rw [hstep]

/-- The source retry loop on an interrupted first step, with fuel left. -/
theorem retryR_intr_eq {σ : Type} (ep : ByteSrc σ) (sliceLen : Nat) (fuel : Nat)
    (s s1 : σ) (hstep : ep.step s sliceLen = (.intr, s1)) :
    retryR ep sliceLen (fuel + 1) s =
      (retryR ep sliceLen fuel s1).map fun (tr, s2, r) =>
        ((sliceLen, .intr) :: tr, s2, r) := by
  conv_lhs => rw [retryR_eq]
  rw [hstep]

/-- The source retry loop on an interrupted first step, out of fuel. -/
theorem retryR_intr_zero {σ : Type} (ep : ByteSrc σ) (sliceLen : Nat)
    (s s1 : σ) (hstep : ep.step s sliceLen = (.intr, s1)) :
    retryR ep sliceLen 0 s = none := by
  conv_lhs => rw [retryR_eq]
  rw [hstep]

/-- Shape of a completed sink retry loop: some interrupted attempts on the
same slice, then one final attempt whose response decides the outcome. -/
theorem retryW_shape {σ : Type} (ep : ByteSink σ) (slice : List Byte) :
    ∀ (fuel : Nat) (s : σ) (tr : List (List Byte × SinkResp)) (s1 : σ)
      (r : Except Nat Nat),
      retryW ep slice fuel s = some (tr, s1, r) →
      ∃ m last, tr = List.replicate m (slice, SinkResp.intr) ++ [(slice, last)] ∧
        ((∃ n, last = SinkResp.ok n ∧ r = .ok n) ∨
          (∃ e, last = SinkResp.err e ∧ r = .error e))
  | fuel, s, tr, s1, r => by
    intro h
    rcases hstep : ep.step s slice with ⟨resp, s2⟩
    cases resp with
    | ok n =>
      rw [retryW_ok_eq ep slice fuel s s2 n hstep] at h
      have h2 : ([(slice, SinkResp.ok n)], s2, Except.ok (ε := Nat) n) = (tr, s1, r) :=
        Option.some.inj h
      injection h2 with htr h3
      injection h3 with hs1 hr
      exact ⟨0, .ok n, by rw [← htr]; simp, Or.inl ⟨n, rfl, hr.symm⟩⟩
    | err e =>
      rw [retryW_err_eq ep slice fuel s s2 e hstep] at h
      have h2 : ([(slice, SinkResp.err e)], s2, Except.error (α := Nat) e) = (tr, s1, r) :=
        Option.some.inj h
      injection h2 with htr h3
      injection h3 with hs1 hr
      exact ⟨0, .err e, by rw [← htr]; simp, Or.inr ⟨e, rfl, hr.symm⟩⟩
    | intr =>
      cases fuel with
      | zero =>
        rw [retryW_intr_zero ep slice s s2 hstep] at h
        exact absurd h (by simp)
      | succ fuel =>
        rw [retryW_intr_eq ep slice fuel s s2 hstep] at h
        rcases hrec : retryW ep slice fuel s2 with _ | ⟨tr2, s3, r2⟩
        · rw [hrec] at h
          simp at h
        · obtain ⟨m, last, htr2, hor⟩ := retryW_shape ep slice fuel s2 tr2 s3 r2 hrec
          rw [hrec] at h
          have h2 : ((slice, SinkResp.intr) :: tr2, s3, r2) = (tr, s1, r) :=
            Option.some.inj h
          injection h2 with htr h3
          injection h3 with hs1 hr
          subst htr
          subst hr
          refine ⟨m + 1, last, ?_, hor⟩
          rw [htr2]
          simp [List.replicate_succ]

/-- Shape of a completed source retry loop. -/
theorem retryR_shape {σ : Type} (ep : ByteSrc σ) (sliceLen : Nat) :
    ∀ (fuel : Nat) (s : σ) (tr : List (Nat × SrcResp)) (s1 : σ)
      (r : Except Nat (List Byte)),
      retryR ep sliceLen fuel s = some (tr, s1, r) →
      ∃ m last, tr = List.replicate m (sliceLen, SrcResp.intr) ++ [(sliceLen, last)] ∧
        ((∃ bs, last = SrcResp.ok bs ∧ r = .ok bs) ∨
          (∃ e, last = SrcResp.err e ∧ r = .error e))
  | fuel, s, tr, s1, r => by
    intro h
    rcases hstep : ep.step s sliceLen with ⟨resp, s2⟩
    cases resp with
    | ok bs =>
      rw [retryR_ok_eq ep sliceLen fuel s s2 bs hstep] at h
      have h2 : ([(sliceLen, SrcResp.ok bs)], s2, Except.ok (ε := Nat) bs) = (tr, s1, r) :=
        Option.some.inj h
      injection h2 with htr h3
      injection h3 with hs1 hr
      exact ⟨0, .ok bs, by rw [← htr]; simp, Or.inl ⟨bs, rfl, hr.symm⟩⟩
    | err e =>
      rw [retryR_err_eq ep sliceLen fuel s s2 e hstep] at h
      have h2 : ([(sliceLen, SrcResp.err e)], s2,
          Except.error (α := List Byte) e) = (tr, s1, r) :=
        Option.some.inj h
      injection h2 with htr h3
      injection h3 with hs1 hr
      exact ⟨0, .err e, by rw [← htr]; simp, Or.inr ⟨e, rfl, hr.symm⟩⟩
    | intr =>
      cases fuel with
      | zero =>
        rw [retryR_intr_zero ep sliceLen s s2 hstep] at h
        exact absurd h (by simp)
      | succ fuel =>
        rw [retryR_intr_eq ep sliceLen fuel s s2 hstep] at h
        rcases hrec : retryR ep sliceLen fuel s2 with _ | ⟨tr2, s3, r2⟩
        · rw [hrec] at h
          simp at h
        · obtain ⟨m, last, htr2, hor⟩ := retryR_shape ep sliceLen fuel s2 tr2 s3 r2 hrec
          rw [hrec] at h
          have h2 : ((sliceLen, SrcResp.intr) :: tr2, s3, r2) = (tr, s1, r) :=
            Option.some.inj h
          injection h2 with htr h3
          injection h3 with hs1 hr
          subst htr
          subst hr
          refine ⟨m + 1, last, ?_, hor⟩
          rw [htr2]
          simp [List.replicate_succ]

/-- Bytes accumulated by the successful responses in a source-call trace:
each `ok bs` reply to a `sliceLen`-byte sub-range moves
`min bs.length sliceLen` bytes. -/
def sumOkSrc (tr : List (Nat × SrcResp)) : Nat :=
  (tr.map fun p =>
    match p.2 with
    | .ok bs => min bs.length p.1
    | _ => 0).sum

/-- Elimination for indexing into "m copies of `a` then one `b`". -/
theorem getElem_replicate_append_elim {α : Type} {m : Nat} {a b x : α} {k : Nat}
    (h : (List.replicate m a ++ [b])[k]? = some x) :
    (k < m ∧ x = a) ∨ (k = m ∧ x = b) := by
  rw [getElem_replicate_append] at h
  split_ifs at h with h1 h2
  · exact Or.inl ⟨h1, (Option.some.inj h).symm⟩
  · exact Or.inr ⟨h2, (Option.some.inj h).symm⟩

theorem length_replicate_append {α : Type} (m : Nat) (a b : α) :
    (List.replicate m a ++ [b]).length = m + 1 := by
  simp

theorem sumOkSink_append (tr0 tr2 : List (List Byte × SinkResp)) :
    sumOkSink (tr0 ++ tr2) = sumOkSink tr0 + sumOkSink tr2 := by
  simp [sumOkSink]

theorem sumOkSink_rep_ok (m : Nat) (slice : List Byte) (n : Nat) :
    sumOkSink (List.replicate m (slice, SinkResp.intr) ++ [(slice, SinkResp.ok n)]) = n := by
  induction m with
  | zero => simp [sumOkSink]
  | succ m ih =>
    rw [List.replicate_succ, List.cons_append]
    simp only [sumOkSink] at ih ⊢
    simp [ih]

theorem sumOkSrc_append (tr0 tr2 : List (Nat × SrcResp)) :
    sumOkSrc (tr0 ++ tr2) = sumOkSrc tr0 + sumOkSrc tr2 := by
  simp [sumOkSrc]

theorem sumOkSrc_rep_ok (m : Nat) (sliceLen : Nat) (bs : List Byte) :
    sumOkSrc (List.replicate m (sliceLen, SrcResp.intr) ++ [(sliceLen, SrcResp.ok bs)]) =
      min bs.length sliceLen := by
  induction m with
  | zero => simp [sumOkSrc]
  | succ m ih =>
    rw [List.replicate_succ, List.cons_append]
    simp only [sumOkSrc] at ih ⊢
    simp [ih]

/-- The sub-range of a segment that one endpoint call receives: the segment
tail from the residual offset, clipped to the remaining budget. -/
def sliceOf (iov : List Byte) (offset len : Nat) : List Byte :=
  if len < (iov.drop offset).length then (iov.drop offset).take len else iov.drop offset

/-- Unfolding equation of the read loop at nil. -/
theorem readVolLoop_nil_eq {σ : Type} (ep : ByteSink σ) (fuel : Nat)
    (offset len : Nat) (s : σ) (total : Nat) :
    readVolLoop ep fuel [] offset len s total = some ⟨[], .ok total, s⟩ :=
  rfl

/-- Unfolding equation of the write loop at nil. -/
theorem writeVolLoop_nil_eq {σ : Type} (ep : ByteSrc σ) (fuel : Nat)
    (offset len : Nat) (s : σ) (total : Nat) :
    writeVolLoop ep fuel [] offset len s total = some ⟨[], .ok total, [], s⟩ :=
  rfl

/-- Unfolding equation of the read loop at a covered segment. -/
theorem readVolLoop_covered_eq {σ : Type} (ep : ByteSink σ) (fuel : Nat)
    (iov : List Byte) (rest : List (List Byte)) (offset len : Nat) (s : σ) (total : Nat)
    (h0 : ¬len = 0) (h1 : ¬iov.length ≤ offset) :
    readVolLoop ep fuel (iov :: rest) offset len s total =
      match retryW ep (sliceOf iov offset len) fuel s with
      | none => none
      | some (tr, s1, .error e) => some ⟨tr, .error e, s1⟩
      | some (tr, s1, .ok n) =>
        if n < (sliceOf iov offset len).length then some ⟨tr, .ok (total + n), s1⟩
        else
          match readVolLoop ep fuel rest 0 (len - n) s1 (total + n) with
          | none => none
          | some out => some ⟨tr ++ out.trace, out.res, out.sink⟩ := by
  rw [readVolLoop_cons_eq, if_neg h0, if_neg h1]
  rfl

/-- Unfolding equation of the write loop at a covered segment. -/
theorem writeVolLoop_covered_eq {σ : Type} (ep : ByteSrc σ) (fuel : Nat)
    (iov : List Byte) (rest : List (List Byte)) (offset len : Nat) (s : σ) (total : Nat)
    (h0 : ¬len = 0) (h1 : ¬iov.length ≤ offset) :
    writeVolLoop ep fuel (iov :: rest) offset len s total =
      match retryR ep (min (iov.length - offset) len) fuel s with
      | none => none
      | some (tr, s1, .error e) => some ⟨tr, .error e, iov :: rest, s1⟩
      | some (tr, s1, .ok bs) =>
        if (bs.take (min (iov.length - offset) len)).length <
            min (iov.length - offset) len then
          some ⟨tr, .ok (total + (bs.take (min (iov.length - offset) len)).length),
            (iov.take offset ++ bs.take (min (iov.length - offset) len) ++
              iov.drop (offset + (bs.take (min (iov.length - offset) len)).length)) ::
              rest, s1⟩
        else
          match writeVolLoop ep fuel rest 0
              (len - (bs.take (min (iov.length - offset) len)).length) s1
              (total + (bs.take (min (iov.length - offset) len)).length) with
          | none => none
          | some out =>
            some ⟨tr ++ out.trace, out.res,
              (iov.take offset ++ bs.take (min (iov.length - offset) len) ++
                iov.drop (offset + (bs.take (min (iov.length - offset) len)).length)) ::
                out.vecs, out.src⟩ := by
  rw [writeVolLoop_cons_eq, if_neg h0, if_neg h1]

/-- Unfolding equation of the read loop at a skipped segment. -/
theorem readVolLoop_skip_eq {σ : Type} (ep : ByteSink σ) (fuel : Nat)
    (iov : List Byte) (rest : List (List Byte)) (offset len : Nat) (s : σ) (total : Nat)
    (h0 : ¬len = 0) (h1 : iov.length ≤ offset) :
    readVolLoop ep fuel (iov :: rest) offset len s total =
      readVolLoop ep fuel rest (offset - iov.length) len s total := by
  rw [readVolLoop_cons_eq, if_neg h0, if_pos h1]

/-- Unfolding equation of the write loop at a skipped segment. -/
theorem writeVolLoop_skip_eq {σ : Type} (ep : ByteSrc σ) (fuel : Nat)
    (iov : List Byte) (rest : List (List Byte)) (offset len : Nat) (s : σ) (total : Nat)
    (h0 : ¬len = 0) (h1 : iov.length ≤ offset) :
    writeVolLoop ep fuel (iov :: rest) offset len s total =
      match writeVolLoop ep fuel rest (offset - iov.length) len s total with
      | none => none
      | some out => some ⟨out.trace, out.res, iov :: out.vecs, out.src⟩ := by
  rw [writeVolLoop_cons_eq, if_neg h0, if_pos h1]

/-- Elimination for an indexed entry of a retry-call trace. -/
theorem rep_app_pair_elim {α β : Type} {m : Nat} {a : α} {i last : β} {k : Nat}
    {sl : α} {x : β}
    (hk : (List.replicate m (a, i) ++ [(a, last)])[k]? = some (sl, x)) :
    (k < m ∧ sl = a ∧ x = i) ∨ (k = m ∧ sl = a ∧ x = last) := by
  rcases getElem_replicate_append_elim hk with ⟨hkm, hx⟩ | ⟨hkm, hx⟩
  · injection hx with h1 h2
    exact Or.inl ⟨hkm, h1, h2⟩
  · injection hx with h1 h2
    exact Or.inr ⟨hkm, h1, h2⟩

/-- Within a retry-call trace, every interrupted attempt has a successor
attempt on the same slice. -/
theorem rep_app_next_exists {α β : Type} {m : Nat} {a : α} {i last : β} (k : Nat)
    (hk : k < m) :
    ∃ r2, (List.replicate m (a, i) ++ [(a, last)])[k + 1]? = some (a, r2) := by
  by_cases hk1 : k + 1 < m
  · exact ⟨i, by rw [getElem_replicate_append, if_pos hk1]⟩
  · exact ⟨last, by rw [getElem_replicate_append, if_neg hk1, if_pos (by omega)]⟩

/-- Trace-level behavior of the read loop for an arbitrary sink endpoint:
an interrupted call is immediately followed by a call on the same slice; an
error response is the last call and the loop returns exactly that error; a
short successful response is the last call and the loop returns the
accumulated byte count; and an `ok` result is the sum of the bytes of the
successful calls. -/
theorem readVolLoop_trace {σ : Type} (ep : ByteSink σ) (fuel : Nat) :
    ∀ (vecs : List (List Byte)) (offset len : Nat) (s : σ) (total : Nat)
      (out : RVOut σ),
      readVolLoop ep fuel vecs offset len s total = some out →
      (∀ k sl, out.trace[k]? = some (sl, SinkResp.intr) →
        ∃ r2, out.trace[k + 1]? = some (sl, r2)) ∧
      (∀ k sl e, out.trace[k]? = some (sl, SinkResp.err e) →
        out.trace.length = k + 1 ∧ out.res = .error e) ∧
      (∀ k sl n, out.trace[k]? = some (sl, SinkResp.ok n) → n < sl.length →
        out.trace.length = k + 1 ∧ out.res = .ok (total + sumOkSink out.trace)) ∧
      (∀ t, out.res = .ok t → t = total + sumOkSink out.trace)
  | [], offset, len, s, total, out => by
    intro h
    rw [readVolLoop_nil_eq] at h
    obtain rfl := Option.some.inj h
    refine ⟨?_, ?_, ?_, ?_⟩
    · intro k sl hk
      simp at hk
    · intro k sl e hk
      simp at hk
    · intro k sl n hk
      simp at hk
    · intro t ht
      simp only [sumOkSink, List.map_nil, List.sum_nil, Nat.add_zero]
      exact (Except.ok.inj ht).symm
  | iov :: rest, offset, len, s, total, out => by
    intro h
    by_cases h0 : len = 0
    · subst h0
      rw [readVolLoop_len_zero] at h
      obtain rfl := Option.some.inj h
      refine ⟨?_, ?_, ?_, ?_⟩
      · intro k sl hk
        simp at hk
      · intro k sl e hk
        simp at hk
      · intro k sl n hk
        simp at hk
      · intro t ht
        simp only [sumOkSink, List.map_nil, List.sum_nil, Nat.add_zero]
        exact (Except.ok.inj ht).symm
    by_cases h1 : iov.length ≤ offset
    · rw [readVolLoop_skip_eq ep fuel iov rest offset len s total h0 h1] at h
      exact readVolLoop_trace ep fuel rest (offset - iov.length) len s total out h
    rw [readVolLoop_covered_eq ep fuel iov rest offset len s total h0 h1] at h
    rcases hr : retryW ep (sliceOf iov offset len) fuel s with _ | ⟨tr0, s1, r⟩
    · rw [hr] at h
      exact absurd h (by simp)
    rw [hr] at h
    obtain ⟨m, last, htr0, hor⟩ :=
      retryW_shape ep (sliceOf iov offset len) fuel s tr0 s1 r hr
    cases r with
    | error e =>
      obtain rfl := Option.some.inj h
      rcases hor with ⟨n2, _, hcon⟩ | ⟨e2, hlast, herr⟩
      · exact absurd hcon (by simp)
      have he2 : e = e2 := Except.error.inj herr
      subst he2
      subst hlast
      refine ⟨?_, ?_, ?_, ?_⟩
      · intro k sl hk
        rw [htr0] at hk
        rcases rep_app_pair_elim hk with ⟨hkm, rfl, _⟩ | ⟨_, _, hx⟩
        · rw [htr0]
          exact rep_app_next_exists k hkm
        · exact absurd hx (by simp)
      · intro k sl e3 hk
        rw [htr0] at hk
        rcases rep_app_pair_elim hk with ⟨_, _, hx⟩ | ⟨hkm, _, hx⟩
        · exact absurd hx (by simp)
        · have he3 : e = e3 := SinkResp.err.inj hx.symm
          subst he3
          exact ⟨by rw [htr0, length_replicate_append]; omega, rfl⟩
      · intro k sl n3 hk _
        rw [htr0] at hk
        rcases rep_app_pair_elim hk with ⟨_, _, hx⟩ | ⟨_, _, hx⟩ <;>
          exact absurd hx (by simp)
      · intro t ht
        exact absurd ht (by simp)
    | ok n =>
      rcases hor with ⟨n2, hlast, hok⟩ | ⟨e2, _, hcon⟩
      swap
      · exact absurd hcon (by simp)
      have hn2 : n = n2 := Except.ok.inj hok
      subst hn2
      subst hlast
      have h2 : (if n < (sliceOf iov offset len).length then
            (some ⟨tr0, .ok (total + n), s1⟩ : Option (RVOut σ))
          else
            match readVolLoop ep fuel rest 0 (len - n) s1 (total + n) with
            | none => none
            | some out2 => some ⟨tr0 ++ out2.trace, out2.res, out2.sink⟩) = some out := h
      clear h
      by_cases hshort : n < (sliceOf iov offset len).length
      · rw [if_pos hshort] at h2
        obtain rfl := Option.some.inj h2
        refine ⟨?_, ?_, ?_, ?_⟩
        · intro k sl hk
          rw [htr0] at hk
          rcases rep_app_pair_elim hk with ⟨hkm, rfl, _⟩ | ⟨_, _, hx⟩
          · rw [htr0]
            exact rep_app_next_exists k hkm
          · exact absurd hx (by simp)
        · intro k sl e3 hk
          rw [htr0] at hk
          rcases rep_app_pair_elim hk with ⟨_, _, hx⟩ | ⟨_, _, hx⟩ <;>
            exact absurd hx (by simp)
        · intro k sl n3 hk _
          rw [htr0] at hk
          rcases rep_app_pair_elim hk with ⟨_, _, hx⟩ | ⟨hkm, _, hx⟩
          · exact absurd hx (by simp)
          · refine ⟨by rw [htr0, length_replicate_append]; omega, ?_⟩
            rw [htr0, sumOkSink_rep_ok]
        · intro t ht
          rw [htr0, sumOkSink_rep_ok]
          exact (Except.ok.inj ht).symm
      · rw [if_neg hshort] at h2
        rcases hrec : readVolLoop ep fuel rest 0 (len - n) s1 (total + n) with _ | out2
        · rw [hrec] at h2
          exact absurd h2 (by simp)
        rw [hrec] at h2
        obtain rfl := Option.some.inj h2
        obtain ⟨ih1, ih2, ih3, ih4⟩ :=
          readVolLoop_trace ep fuel rest 0 (len - n) s1 (total + n) out2 hrec
        have hlen0 : tr0.length = m + 1 := by rw [htr0, length_replicate_append]
        have hsum0 : sumOkSink tr0 = n := by rw [htr0, sumOkSink_rep_ok]
        refine ⟨?_, ?_, ?_, ?_⟩
        · intro k sl hk
          by_cases hkl : k < tr0.length
          · rw [List.getElem?_append_left hkl] at hk
            rw [htr0] at hk
            rcases rep_app_pair_elim hk with ⟨hkm, rfl, _⟩ | ⟨_, _, hx⟩
            · rw [List.getElem?_append_left (by omega), htr0]
              exact rep_app_next_exists k hkm
            · exact absurd hx (by simp)
          · rw [List.getElem?_append_right (by omega)] at hk
            obtain ⟨r2, hnext⟩ := ih1 (k - tr0.length) sl hk
            refine ⟨r2, ?_⟩
            rw [List.getElem?_append_right (by omega),
              (show k + 1 - tr0.length = k - tr0.length + 1 from by omega)]
            exact hnext
        · intro k sl e3 hk
          by_cases hkl : k < tr0.length
          · rw [List.getElem?_append_left hkl] at hk
            rw [htr0] at hk
            rcases rep_app_pair_elim hk with ⟨_, _, hx⟩ | ⟨_, _, hx⟩ <;>
              exact absurd hx (by simp)
          · rw [List.getElem?_append_right (by omega)] at hk
            obtain ⟨hl2, hres2⟩ := ih2 (k - tr0.length) sl e3 hk
            constructor
            · rw [List.length_append]
              omega
            · exact hres2
        · intro k sl n3 hk hshort3
          by_cases hkl : k < tr0.length
          · rw [List.getElem?_append_left hkl] at hk
            rw [htr0] at hk
            rcases rep_app_pair_elim hk with ⟨_, rfl, hx⟩ | ⟨_, rfl, hx⟩
            · exact absurd hx (by simp)
            · have hn3 : n3 = n := SinkResp.ok.inj hx
              subst hn3
              exact absurd hshort3 hshort
          · rw [List.getElem?_append_right (by omega)] at hk
            obtain ⟨hl2, hres2⟩ := ih3 (k - tr0.length) sl n3 hk hshort3
            constructor
            · rw [List.length_append]
              omega
            · rw [hres2, sumOkSink_append, hsum0]
              congr 1
              omega
        · intro t ht
          have := ih4 t ht
          rw [sumOkSink_append, hsum0]
          omega

/-- Trace-level behavior of the write loop for an arbitrary source
endpoint: an interrupted call is immediately followed by a call on the same
sub-range; an error response is the last call and the loop returns exactly
that error; a short successful response is the last call and the loop
returns the accumulated byte count; and an `ok` result is the sum of the
bytes of the successful calls. -/
theorem writeVolLoop_trace {σ : Type} (ep : ByteSrc σ) (fuel : Nat) :
    ∀ (vecs : List (List Byte)) (offset len : Nat) (s : σ) (total : Nat)
      (out : WVOut σ),
      writeVolLoop ep fuel vecs offset len s total = some out →
      (∀ k sl, out.trace[k]? = some (sl, SrcResp.intr) →
        ∃ r2, out.trace[k + 1]? = some (sl, r2)) ∧
      (∀ k sl e, out.trace[k]? = some (sl, SrcResp.err e) →
        out.trace.length = k + 1 ∧ out.res = .error e) ∧
      (∀ k sl bs, out.trace[k]? = some (sl, SrcResp.ok bs) → bs.length < sl →
        out.trace.length = k + 1 ∧ out.res = .ok (total + sumOkSrc out.trace)) ∧
      (∀ t, out.res = .ok t → t = total + sumOkSrc out.trace)
  | [], offset, len, s, total, out => by
    intro h
    rw [writeVolLoop_nil_eq] at h
    obtain rfl := Option.some.inj h
    refine ⟨?_, ?_, ?_, ?_⟩
    · intro k sl hk
      simp at hk
    · intro k sl e hk
      simp at hk
    · intro k sl bs hk
      simp at hk
    · intro t ht
      simp only [sumOkSrc, List.map_nil, List.sum_nil, Nat.add_zero]
      exact (Except.ok.inj ht).symm
  | iov :: rest, offset, len, s, total, out => by
    intro h
    by_cases h0 : len = 0
    · subst h0
      rw [writeVolLoop_len_zero] at h
      obtain rfl := Option.some.inj h
      refine ⟨?_, ?_, ?_, ?_⟩
      · intro k sl hk
        simp at hk
      · intro k sl e hk
        simp at hk
      · intro k sl bs hk
        simp at hk
      · intro t ht
        simp only [sumOkSrc, List.map_nil, List.sum_nil, Nat.add_zero]
        exact (Except.ok.inj ht).symm
    by_cases h1 : iov.length ≤ offset
    · rw [writeVolLoop_skip_eq ep fuel iov rest offset len s total h0 h1] at h
      rcases hrec : writeVolLoop ep fuel rest (offset - iov.length) len s total with _ | out2
      · rw [hrec] at h
        exact absurd h (by simp)
      rw [hrec] at h
      obtain rfl := Option.some.inj h
      obtain ⟨ih1, ih2, ih3, ih4⟩ :=
        writeVolLoop_trace ep fuel rest (offset - iov.length) len s total out2 hrec
      exact ⟨ih1, ih2, ih3, ih4⟩
    rw [writeVolLoop_covered_eq ep fuel iov rest offset len s total h0 h1] at h
    rcases hr : retryR ep (min (iov.length - offset) len) fuel s with _ | ⟨tr0, s1, r⟩
    · rw [hr] at h
      exact absurd h (by simp)
    rw [hr] at h
    obtain ⟨m, last, htr0, hor⟩ :=
      retryR_shape ep (min (iov.length - offset) len) fuel s tr0 s1 r hr
    cases r with
    | error e =>
      obtain rfl := Option.some.inj h
      rcases hor with ⟨bs2, _, hcon⟩ | ⟨e2, hlast, herr⟩
      · exact absurd hcon (by simp)
      have he2 : e = e2 := Except.error.inj herr
      subst he2
      subst hlast
      refine ⟨?_, ?_, ?_, ?_⟩
      · intro k sl hk
        rw [htr0] at hk
        rcases rep_app_pair_elim hk with ⟨hkm, rfl, _⟩ | ⟨_, _, hx⟩
        · rw [htr0]
          exact rep_app_next_exists k hkm
        · exact absurd hx (by simp)
      · intro k sl e3 hk
        rw [htr0] at hk
        rcases rep_app_pair_elim hk with ⟨_, _, hx⟩ | ⟨hkm, _, hx⟩
        · exact absurd hx (by simp)
        · have he3 : e = e3 := SrcResp.err.inj hx.symm
          subst he3
          exact ⟨by rw [htr0, length_replicate_append]; omega, rfl⟩
      · intro k sl bs3 hk _
        rw [htr0] at hk
        rcases rep_app_pair_elim hk with ⟨_, _, hx⟩ | ⟨_, _, hx⟩ <;>
          exact absurd hx (by simp)
      · intro t ht
        exact absurd ht (by simp)
    | ok bs =>
      rcases hor with ⟨bs2, hlast, hok⟩ | ⟨e2, _, hcon⟩
      swap
      · exact absurd hcon (by simp)
      have hbs2 : bs = bs2 := Except.ok.inj hok
      subst hbs2
      subst hlast
      have h2 : (if (bs.take (min (iov.length - offset) len)).length <
              min (iov.length - offset) len then
            (some ⟨tr0,
              .ok (total + (bs.take (min (iov.length - offset) len)).length),
              (iov.take offset ++ bs.take (min (iov.length - offset) len) ++
                iov.drop (offset +
                  (bs.take (min (iov.length - offset) len)).length)) :: rest,
              s1⟩ : Option (WVOut σ))
          else
            match writeVolLoop ep fuel rest 0
                (len - (bs.take (min (iov.length - offset) len)).length) s1
                (total + (bs.take (min (iov.length - offset) len)).length) with
            | none => none
            | some out2 =>
              some ⟨tr0 ++ out2.trace, out2.res,
                (iov.take offset ++ bs.take (min (iov.length - offset) len) ++
                  iov.drop (offset +
                    (bs.take (min (iov.length - offset) len)).length)) ::
                  out2.vecs, out2.src⟩) = some out := h
      clear h
      have hnlen : (bs.take (min (iov.length - offset) len)).length =
          min bs.length (min (iov.length - offset) len) := by
        rw [List.length_take]
        omega
      by_cases hshort : (bs.take (min (iov.length - offset) len)).length <
          min (iov.length - offset) len
      · rw [if_pos hshort] at h2
        obtain rfl := Option.some.inj h2
        refine ⟨?_, ?_, ?_, ?_⟩
        · intro k sl hk
          rw [htr0] at hk
          rcases rep_app_pair_elim hk with ⟨hkm, rfl, _⟩ | ⟨_, _, hx⟩
          · rw [htr0]
            exact rep_app_next_exists k hkm
          · exact absurd hx (by simp)
        · intro k sl e3 hk
          rw [htr0] at hk
          rcases rep_app_pair_elim hk with ⟨_, _, hx⟩ | ⟨_, _, hx⟩ <;>
            exact absurd hx (by simp)
        · intro k sl bs3 hk _
          rw [htr0] at hk
          rcases rep_app_pair_elim hk with ⟨_, _, hx⟩ | ⟨hkm, _, hx⟩
          · exact absurd hx (by simp)
          · refine ⟨by rw [htr0, length_replicate_append]; omega, ?_⟩
            rw [htr0, sumOkSrc_rep_ok, hnlen]
        · intro t ht
          have h3 := Except.ok.inj ht
          rw [htr0, sumOkSrc_rep_ok]
          omega
      · rw [if_neg hshort] at h2
        rcases hrec : writeVolLoop ep fuel rest 0
            (len - (bs.take (min (iov.length - offset) len)).length) s1
            (total + (bs.take (min (iov.length - offset) len)).length) with _ | out2
        · rw [hrec] at h2
          exact absurd h2 (by simp)
        rw [hrec] at h2
        obtain rfl := Option.some.inj h2
        obtain ⟨ih1, ih2, ih3, ih4⟩ := writeVolLoop_trace ep fuel rest 0
          (len - (bs.take (min (iov.length - offset) len)).length) s1
          (total + (bs.take (min (iov.length - offset) len)).length) out2 hrec
        have hlen0 : tr0.length = m + 1 := by rw [htr0, length_replicate_append]
        have hsum0 : sumOkSrc tr0 = (bs.take (min (iov.length - offset) len)).length := by
          rw [htr0, sumOkSrc_rep_ok, hnlen]
        refine ⟨?_, ?_, ?_, ?_⟩
        · intro k sl hk
          by_cases hkl : k < tr0.length
          · rw [List.getElem?_append_left hkl] at hk
            rw [htr0] at hk
            rcases rep_app_pair_elim hk with ⟨hkm, rfl, _⟩ | ⟨_, _, hx⟩
            · rw [List.getElem?_append_left (by omega), htr0]
              exact rep_app_next_exists k hkm
            · exact absurd hx (by simp)
          · rw [List.getElem?_append_right (by omega)] at hk
            obtain ⟨r2, hnext⟩ := ih1 (k - tr0.length) sl hk
            refine ⟨r2, ?_⟩
            rw [List.getElem?_append_right (by omega),
              (show k + 1 - tr0.length = k - tr0.length + 1 from by omega)]
            exact hnext
        · intro k sl e3 hk
          by_cases hkl : k < tr0.length
          · rw [List.getElem?_append_left hkl] at hk
            rw [htr0] at hk
            rcases rep_app_pair_elim hk with ⟨_, _, hx⟩ | ⟨_, _, hx⟩ <;>
              exact absurd hx (by simp)
          · rw [List.getElem?_append_right (by omega)] at hk
            obtain ⟨hl2, hres2⟩ := ih2 (k - tr0.length) sl e3 hk
            constructor
            · rw [List.length_append]
              omega
            · exact hres2
        · intro k sl bs3 hk hshort3
          by_cases hkl : k < tr0.length
          · rw [List.getElem?_append_left hkl] at hk
            rw [htr0] at hk
            rcases rep_app_pair_elim hk with ⟨_, rfl, hx⟩ | ⟨_, rfl, hx⟩
            · exact absurd hx (by simp)
            · have hbs3 : bs3 = bs := SrcResp.ok.inj hx
              subst hbs3
              exact absurd hshort3 (by omega)
          · rw [List.getElem?_append_right (by omega)] at hk
            obtain ⟨hl2, hres2⟩ := ih3 (k - tr0.length) sl bs3 hk hshort3
            constructor
            · rw [List.length_append]
              omega
            · rw [hres2, sumOkSrc_append, hsum0]
              congr 1
              omega
        · intro t ht
          have := ih4 t ht
          rw [sumOkSrc_append, hsum0]
          omega

/-- Well-behaved sink: each `ok` response reports at most the sub-range's
size, as the `WriteVolatile` contract requires. -/
def ByteSink.WB {σ : Type} (ep : ByteSink σ) : Prop :=
  ∀ (s : σ) (slice : List Byte) (n : Nat) (s1 : σ),
    ep.step s slice = (.ok n, s1) → n ≤ slice.length

/-- A well-behaved sink's retry loop reports at most the sub-range's size. -/
theorem retryW_WB {σ : Type} (ep : ByteSink σ) (hwb : ep.WB) (slice : List Byte) :
    ∀ (fuel : Nat) (s : σ) (tr : List (List Byte × SinkResp)) (s1 : σ) (n : Nat),
      retryW ep slice fuel s = some (tr, s1, .ok n) → n ≤ slice.length
  | fuel, s, tr, s1, n => by
    intro h
    rcases hstep : ep.step s slice with ⟨resp, s2⟩
    cases resp with
    | ok n2 =>
      rw [retryW_ok_eq ep slice fuel s s2 n2 hstep] at h
      have h2 := Option.some.inj h
      injection h2 with _ h3
      injection h3 with _ h4
      have hn2 : n2 = n := Except.ok.inj h4
      subst hn2
      exact hwb s slice n2 s2 hstep
    | err e =>
      rw [retryW_err_eq ep slice fuel s s2 e hstep] at h
      have h2 := Option.some.inj h
      injection h2 with _ h3
      injection h3 with _ h4
      exact absurd h4 (by simp)
    | intr =>
      cases fuel with
      | zero =>
        rw [retryW_intr_zero ep slice s s2 hstep] at h
        exact absurd h (by simp)
      | succ fuel =>
        rw [retryW_intr_eq ep slice fuel s s2 hstep] at h
        rcases hrec : retryW ep slice fuel s2 with _ | ⟨tr2, s3, r2⟩
        · rw [hrec] at h
          simp at h
        · rw [hrec] at h
          have h2 : ((slice, SinkResp.intr) :: tr2, s3, r2) = (tr, s1, Except.ok n) :=
            Option.some.inj h
          injection h2 with _ h3
          injection h3 with _ h4
          subst h4
          exact retryW_WB ep hwb slice fuel s2 tr2 s3 n hrec

/-- The sub-range passed to an endpoint call never exceeds the budget. -/
theorem sliceOf_length_le (iov : List Byte) (offset len : Nat) :
    (sliceOf iov offset len).length ≤ len := by
  unfold sliceOf
  split
  · rw [List.length_take]
    omega
  · next h => omega

/-- The requested budget bounds the read loop's byte count, for any
well-behaved sink. -/
theorem readVolLoop_bound {σ : Type} (ep : ByteSink σ) (hwb : ep.WB) (fuel : Nat) :
    ∀ (vecs : List (List Byte)) (offset len : Nat) (s : σ) (total : Nat)
      (out : RVOut σ) (t : Nat),
      readVolLoop ep fuel vecs offset len s total = some out → out.res = .ok t →
      t ≤ total + len
  | [], offset, len, s, total, out, t => by
    intro h ht
    obtain rfl := Option.some.inj (readVolLoop_nil_eq ep fuel offset len s total ▸ h)
    have := Except.ok.inj ht
    omega
  | iov :: rest, offset, len, s, total, out, t => by
    intro h ht
    by_cases h0 : len = 0
    · subst h0
      rw [readVolLoop_len_zero] at h
      obtain rfl := Option.some.inj h
      have := Except.ok.inj ht
      omega
    by_cases h1 : iov.length ≤ offset
    · rw [readVolLoop_skip_eq ep fuel iov rest offset len s total h0 h1] at h
      exact readVolLoop_bound ep hwb fuel rest (offset - iov.length) len s total out t h ht
    rw [readVolLoop_covered_eq ep fuel iov rest offset len s total h0 h1] at h
    rcases hr : retryW ep (sliceOf iov offset len) fuel s with _ | ⟨tr0, s1, r⟩
    · rw [hr] at h
      exact absurd h (by simp)
    rw [hr] at h
    cases r with
    | error e =>
      obtain rfl := Option.some.inj h
      exact absurd ht (by simp)
    | ok n =>
      have hn : n ≤ (sliceOf iov offset len).length :=
        retryW_WB ep hwb (sliceOf iov offset len) fuel s tr0 s1 n hr
      have hsl : (sliceOf iov offset len).length ≤ len := sliceOf_length_le iov offset len
      have h2 : (if n < (sliceOf iov offset len).length then
            (some ⟨tr0, .ok (total + n), s1⟩ : Option (RVOut σ))
          else
            match readVolLoop ep fuel rest 0 (len - n) s1 (total + n) with
            | none => none
            | some out2 => some ⟨tr0 ++ out2.trace, out2.res, out2.sink⟩) = some out := h
      clear h
      by_cases hshort : n < (sliceOf iov offset len).length
      · rw [if_pos hshort] at h2
        obtain rfl := Option.some.inj h2
        have := Except.ok.inj ht
        omega
      · rw [if_neg hshort] at h2
        rcases hrec : readVolLoop ep fuel rest 0 (len - n) s1 (total + n) with _ | out2
        · rw [hrec] at h2
          exact absurd h2 (by simp)
        rw [hrec] at h2
        obtain rfl := Option.some.inj h2
        have := readVolLoop_bound ep hwb fuel rest 0 (len - n) s1 (total + n) out2 t hrec ht
        omega

/-- The requested budget bounds the write loop's byte count, for any
source endpoint (safe Rust already prevents a source from overfilling the
sub-range). -/
theorem writeVolLoop_bound {σ : Type} (ep : ByteSrc σ) (fuel : Nat) :
    ∀ (vecs : List (List Byte)) (offset len : Nat) (s : σ) (total : Nat)
      (out : WVOut σ) (t : Nat),
      writeVolLoop ep fuel vecs offset len s total = some out → out.res = .ok t →
      t ≤ total + len
  | [], offset, len, s, total, out, t => by
    intro h ht
    obtain rfl := Option.some.inj (writeVolLoop_nil_eq ep fuel offset len s total ▸ h)
    have := Except.ok.inj ht
    omega
  | iov :: rest, offset, len, s, total, out, t => by
    intro h ht
    by_cases h0 : len = 0
    · subst h0
      rw [writeVolLoop_len_zero] at h
      obtain rfl := Option.some.inj h
      have := Except.ok.inj ht
      omega
    by_cases h1 : iov.length ≤ offset
    · rw [writeVolLoop_skip_eq ep fuel iov rest offset len s total h0 h1] at h
      rcases hrec : writeVolLoop ep fuel rest (offset - iov.length) len s total with _ | out2
      · rw [hrec] at h
        exact absurd h (by simp)
      rw [hrec] at h
      obtain rfl := Option.some.inj h
      exact writeVolLoop_bound ep fuel rest (offset - iov.length) len s total out2 t hrec ht
    rw [writeVolLoop_covered_eq ep fuel iov rest offset len s total h0 h1] at h
    rcases hr : retryR ep (min (iov.length - offset) len) fuel s with _ | ⟨tr0, s1, r⟩
    · rw [hr] at h
      exact absurd h (by simp)
    rw [hr] at h
    cases r with
    | error e =>
      obtain rfl := Option.some.inj h
      exact absurd ht (by simp)
    | ok bs =>
      have hn : (bs.take (min (iov.length - offset) len)).length ≤ len := by
        rw [List.length_take]
        omega
      have h2 : (if (bs.take (min (iov.length - offset) len)).length <
              min (iov.length - offset) len then
            (some ⟨tr0,
              .ok (total + (bs.take (min (iov.length - offset) len)).length),
              (iov.take offset ++ bs.take (min (iov.length - offset) len) ++
                iov.drop (offset +
                  (bs.take (min (iov.length - offset) len)).length)) :: rest,
              s1⟩ : Option (WVOut σ))
          else
            match writeVolLoop ep fuel rest 0
                (len - (bs.take (min (iov.length - offset) len)).length) s1
                (total + (bs.take (min (iov.length - offset) len)).length) with
            | none => none
            | some out2 =>
              some ⟨tr0 ++ out2.trace, out2.res,
                (iov.take offset ++ bs.take (min (iov.length - offset) len) ++
                  iov.drop (offset +
                    (bs.take (min (iov.length - offset) len)).length)) ::
                  out2.vecs, out2.src⟩) = some out := h
      clear h
      by_cases hshort : (bs.take (min (iov.length - offset) len)).length <
          min (iov.length - offset) len
      · rw [if_pos hshort] at h2
        obtain rfl := Option.some.inj h2
        have := Except.ok.inj ht
        omega
      · rw [if_neg hshort] at h2
        rcases hrec : writeVolLoop ep fuel rest 0
            (len - (bs.take (min (iov.length - offset) len)).length) s1
            (total + (bs.take (min (iov.length - offset) len)).length) with _ | out2
        · rw [hrec] at h2
          exact absurd h2 (by simp)
        rw [hrec] at h2
        obtain rfl := Option.some.inj h2
        have := writeVolLoop_bound ep fuel rest 0
          (len - (bs.take (min (iov.length - offset) len)).length) s1
          (total + (bs.take (min (iov.length - offset) len)).length) out2 t hrec ht
        omega

/-- Whether a sink response is a transient interruption. -/
def SinkResp.isIntr : SinkResp → Bool
  | .intr => true
  | _ => false

/-- A scripted sink endpoint: a predetermined response stream; an exhausted
script keeps interrupting forever. -/
def scriptSink : ByteSink (List SinkResp) :=
  ⟨fun script _slice =>
    match script with
    | [] => (.intr, [])
    | r :: rest => (r, rest)⟩

/-- A scripted source endpoint. -/
def scriptSrc : ByteSrc (List SrcResp) :=
  ⟨fun script _sliceLen =>
    match script with
    | [] => (.intr, [])
    | r :: rest => (r, rest)⟩

/-- The script with its interruptions removed. -/
def deintrS (script : List SinkResp) : List SinkResp :=
  script.filter fun r => !r.isIntr

/-- The number of interruptions in a script. -/
def intrCountS (script : List SinkResp) : Nat :=
  (script.filter fun r => r.isIntr).length

/-- The loop outcome a non-interruption response produces. -/
def outcomeS : SinkResp → Except Nat Nat
  | .ok n => .ok n
  | .err e => .error e
  | .intr => .ok 0

/-- An exhausted scripted sink spins forever in the retry loop. -/
theorem retryW_script_nil (slice : List Byte) :
    ∀ (fuel : Nat), retryW scriptSink slice fuel [] = none
  | 0 => retryW_intr_zero scriptSink slice [] [] rfl
  | fuel + 1 => by
    rw [retryW_intr_eq scriptSink slice fuel [] [] rfl,
      retryW_script_nil slice fuel]
    rfl

/-- Behavior of the retry loop on a scripted sink with enough fuel: it
burns the leading interruptions and consumes the first real response. -/
theorem retryW_script (slice : List Byte) :
    ∀ (script : List SinkResp) (fuel : Nat), intrCountS script ≤ fuel →
      (deintrS script = [] → retryW scriptSink slice fuel script = none) ∧
      (∀ r rest2, deintrS script = r :: rest2 →
        ∃ tr rem, retryW scriptSink slice fuel script = some (tr, rem, outcomeS r) ∧
          deintrS rem = rest2 ∧ intrCountS rem ≤ intrCountS script ∧
          r.isIntr = false)
  | [], fuel, _ => by
    constructor
    · intro _
      exact retryW_script_nil slice fuel
    · intro r rest2 hcon
      simp [deintrS] at hcon
  | r0 :: tail, fuel, hfuel => by
    cases hri : r0.isIntr with
    | true =>
      have hr0 : r0 = .intr := by
        cases r0 <;> simp [SinkResp.isIntr] at hri ⊢
      subst hr0
      have hcount : intrCountS (SinkResp.intr :: tail) = intrCountS tail + 1 := by
        simp [intrCountS, SinkResp.isIntr]
      cases fuel with
      | zero => omega
      | succ fuel =>
        have hstep : scriptSink.step (SinkResp.intr :: tail) slice = (.intr, tail) := rfl
        have hde : deintrS (SinkResp.intr :: tail) = deintrS tail := by
          simp [deintrS, SinkResp.isIntr]
        obtain ⟨ih1, ih2⟩ := retryW_script slice tail fuel (by omega)
        constructor
        · intro hnil
          rw [retryW_intr_eq scriptSink slice fuel _ tail hstep,
            ih1 (by rw [← hde]; exact hnil)]
          rfl
        · intro r rest2 hcons
          obtain ⟨tr, rem, hrun, hderem, hcnt, hni⟩ := ih2 r rest2 (by rw [← hde]; exact hcons)
          refine ⟨(slice, .intr) :: tr, rem, ?_, hderem, by omega, hni⟩
          rw [retryW_intr_eq scriptSink slice fuel _ tail hstep, hrun]
          rfl
    | false =>
      have hde : deintrS (r0 :: tail) = r0 :: deintrS tail := by
        simp [deintrS, hri]
      have hcount : intrCountS (r0 :: tail) = intrCountS tail := by
        simp [intrCountS, hri]
      constructor
      · intro hnil
        rw [hde] at hnil
        exact absurd hnil (by simp)
      · intro r rest2 hcons
        rw [hde] at hcons
        injection hcons with hr hrest
        subst hr
        subst hrest
        cases r0 with
        | intr => simp [SinkResp.isIntr] at hri
        | ok n =>
          exact ⟨[(slice, .ok n)], tail,
            retryW_ok_eq scriptSink slice fuel _ tail n rfl, rfl, by omega, hri⟩
        | err e =>
          exact ⟨[(slice, .err e)], tail,
            retryW_err_eq scriptSink slice fuel _ tail e rfl, rfl, by omega, hri⟩

/-- The read loop at a covered segment when the retry loop yields bytes. -/
theorem readVolLoop_covered_ok {σ : Type} (ep : ByteSink σ) (fuel : Nat)
    (iov : List Byte) (rest : List (List Byte)) (offset len : Nat) (s : σ) (total : Nat)
    (tr : List (List Byte × SinkResp)) (s1 : σ) (n : Nat)
    (h0 : ¬len = 0) (h1 : ¬iov.length ≤ offset)
    (hr : retryW ep (sliceOf iov offset len) fuel s = some (tr, s1, .ok n)) :
    readVolLoop ep fuel (iov :: rest) offset len s total =
      if n < (sliceOf iov offset len).length then some ⟨tr, .ok (total + n), s1⟩
      else
        match readVolLoop ep fuel rest 0 (len - n) s1 (total + n) with
        | none => none
        | some out => some ⟨tr ++ out.trace, out.res, out.sink⟩ := by
  rw [readVolLoop_covered_eq ep fuel iov rest offset len s total h0 h1, hr]

/-- The read loop at a covered segment when the retry loop fails. -/
theorem readVolLoop_covered_err {σ : Type} (ep : ByteSink σ) (fuel : Nat)
    (iov : List Byte) (rest : List (List Byte)) (offset len : Nat) (s : σ) (total : Nat)
    (tr : List (List Byte × SinkResp)) (s1 : σ) (e : Nat)
    (h0 : ¬len = 0) (h1 : ¬iov.length ≤ offset)
    (hr : retryW ep (sliceOf iov offset len) fuel s = some (tr, s1, .error e)) :
    readVolLoop ep fuel (iov :: rest) offset len s total = some ⟨tr, .error e, s1⟩ := by
  rw [readVolLoop_covered_eq ep fuel iov rest offset len s total h0 h1, hr]

/-- The read loop at a covered segment when the retry loop spins forever. -/
theorem readVolLoop_covered_none {σ : Type} (ep : ByteSink σ) (fuel : Nat)
    (iov : List Byte) (rest : List (List Byte)) (offset len : Nat) (s : σ) (total : Nat)
    (h0 : ¬len = 0) (h1 : ¬iov.length ≤ offset)
    (hr : retryW ep (sliceOf iov offset len) fuel s = none) :
    readVolLoop ep fuel (iov :: rest) offset len s total = none := by
  rw [readVolLoop_covered_eq ep fuel iov rest offset len s total h0 h1, hr]

/-- Interruption insensitivity of the read loop: with enough retry fuel,
running against a scripted sink gives the same result as running against
the same script with all interruptions removed (with any fuel). -/
theorem readVolLoop_deintr (fuel fuel2 : Nat) :
    ∀ (vecs : List (List Byte)) (offset len : Nat) (script : List SinkResp)
      (total : Nat),
      intrCountS script ≤ fuel →
      (readVolLoop scriptSink fuel vecs offset len script total).map RVOut.res =
      (readVolLoop scriptSink fuel2 vecs offset len (deintrS script) total).map RVOut.res
  | [], offset, len, script, total, _ => by
    rw [readVolLoop_nil_eq, readVolLoop_nil_eq]
    rfl
  | iov :: rest, offset, len, script, total, hfuel => by
    by_cases h0 : len = 0
    · subst h0
      rw [readVolLoop_len_zero, readVolLoop_len_zero]
      rfl
    by_cases h1 : iov.length ≤ offset
    · rw [readVolLoop_skip_eq scriptSink fuel iov rest offset len script total h0 h1,
        readVolLoop_skip_eq scriptSink fuel2 iov rest offset len (deintrS script) total h0 h1]
      exact readVolLoop_deintr fuel fuel2 rest (offset - iov.length) len script total hfuel
    obtain ⟨hnil, hcons⟩ := retryW_script (sliceOf iov offset len) script fuel hfuel
    rcases hde : deintrS script with _ | ⟨r, rest2⟩
    · rw [readVolLoop_covered_none scriptSink fuel iov rest offset len script total
          h0 h1 (hnil hde),
        readVolLoop_covered_none scriptSink fuel2 iov rest offset len [] total
          h0 h1 (retryW_script_nil (sliceOf iov offset len) fuel2)]
    obtain ⟨tr, rem, hrun, hderem, hcnt, hni⟩ := hcons r rest2 hde
    cases r with
    | intr => simp [SinkResp.isIntr] at hni
    | ok n =>
      have hrun2 : retryW scriptSink (sliceOf iov offset len) fuel script =
          some (tr, rem, Except.ok n) := hrun
      rw [readVolLoop_covered_ok scriptSink fuel iov rest offset len script total
          tr rem n h0 h1 hrun2,
        readVolLoop_covered_ok scriptSink fuel2 iov rest offset len
          (SinkResp.ok n :: rest2) total [(sliceOf iov offset len, SinkResp.ok n)]
          rest2 n h0 h1
          (retryW_ok_eq scriptSink (sliceOf iov offset len) fuel2
            (SinkResp.ok n :: rest2) rest2 n rfl)]
      by_cases hshort : n < (sliceOf iov offset len).length
      · rw [if_pos hshort, if_pos hshort]
        rfl
      · rw [if_neg hshort, if_neg hshort]
        have ih := readVolLoop_deintr fuel fuel2 rest 0 (len - n) rem (total + n) (by omega)
        rw [hderem] at ih
        rcases hx : readVolLoop scriptSink fuel rest 0 (len - n) rem (total + n) with _ | outL <;>
          rcases hy : readVolLoop scriptSink fuel2 rest 0 (len - n) rest2 (total + n) with _ | outR
        · rfl
        · rw [hx, hy] at ih
          exact absurd ih (by simp)
        · rw [hx, hy] at ih
          exact absurd ih (by simp)
        · rw [hx, hy] at ih
          have hres : outL.res = outR.res := Option.some.inj ih
          simp [hres]
    | err e =>
      have hrun2 : retryW scriptSink (sliceOf iov offset len) fuel script =
          some (tr, rem, Except.error e) := hrun
      rw [readVolLoop_covered_err scriptSink fuel iov rest offset len script total
          tr rem e h0 h1 hrun2,
        readVolLoop_covered_err scriptSink fuel2 iov rest offset len
          (SinkResp.err e :: rest2) total [(sliceOf iov offset len, SinkResp.err e)]
          rest2 e h0 h1
          (retryW_err_eq scriptSink (sliceOf iov offset len) fuel2
            (SinkResp.err e :: rest2) rest2 e rfl)]
      rfl

/-- `get_slice` on a translatable range. -/
theorem get_slice_eq (m : GuestMem) (addr len : Nat) (h : addr + len ≤ m.size) :
    m.get_slice addr len =
      some ((List.range len).map fun i => m.bytes (addr + i)) := by
  unfold GuestMem.get_slice
  rw [if_pos h]

/-- Unfolding equation of the read-buffer constructor at a cons cell. -/
theorem from_descriptor_chain_cons_eq (m : GuestMem) (d : Descriptor)
    (rest : List Descriptor) :
    IoVecBuffer.from_descriptor_chain m (d :: rest) =
      if d.writeOnly then .error .WriteOnlyDescriptor
      else
        match m.get_slice d.addr d.len with
        | none => .error .GuestMemory
        | some data =>
          match IoVecBuffer.from_descriptor_chain m rest with
          | .error e => .error e
          | .ok b => .ok ⟨data :: b.vecs, d.len + b.len⟩ :=
  rfl

/-- Unfolding equation of the write-buffer constructor worker at a cons
cell. -/
theorem from_descriptor_chain_aux_cons_eq (m : GuestMem) (d : Descriptor)
    (rest : List Descriptor) (idx : Nat) :
    IoVecBufferMut.from_descriptor_chain_aux m (d :: rest) idx =
      if !d.writeOnly then ([], .error .ReadOnlyDescriptor)
      else
        match m.get_slice d.addr d.len with
        | none => ([], .error .GuestMemory)
        | some data =>
          match IoVecBufferMut.from_descriptor_chain_aux m rest (idx + 1) with
          | (evs, .error e) =>
            (.markDirty idx 0 d.len :: .getPtr idx :: evs, .error e)
          | (evs, .ok b) =>
            (.markDirty idx 0 d.len :: .getPtr idx :: evs,
              .ok ⟨data :: b.vecs, d.len + b.len⟩) :=
  rfl

/-- On a chain of guest-readable, translatable descriptors the read-buffer
constructor succeeds, with one segment per descriptor, each of the
descriptor's length, and the cached length equal to their sum. -/
theorem from_descriptor_chain_ok (m : GuestMem) :
    ∀ (descs : List Descriptor),
      (∀ d ∈ descs, d.writeOnly = false) →
      (∀ d ∈ descs, d.addr + d.len ≤ m.size) →
      ∃ b, IoVecBuffer.from_descriptor_chain m descs = .ok b ∧
        b.len = totalLen b.vecs ∧
        b.vecs.map List.length = descs.map Descriptor.len ∧
        b.len = (descs.map Descriptor.len).sum
  | [], _, _ => ⟨⟨[], 0⟩, rfl, by simp [totalLen], by simp, by simp⟩
  | d :: rest, hw, ht => by
    obtain ⟨b, hb, hlen, hmap, hsum⟩ := from_descriptor_chain_ok m rest
      (fun e he => hw e (List.mem_cons_of_mem d he))
      (fun e he => ht e (List.mem_cons_of_mem d he))
    refine ⟨⟨((List.range d.len).map fun i => m.bytes (d.addr + i)) :: b.vecs,
      d.len + b.len⟩, ?_, ?_, ?_, ?_⟩
    · rw [from_descriptor_chain_cons_eq,
        if_neg (by simp [hw d (List.mem_cons_self d rest)]),
        get_slice_eq m d.addr d.len (ht d (List.mem_cons_self d rest)), hb]
    · rw [totalLen_cons]
      simp only [List.length_map, List.length_range]
      omega
    · simp [hmap]
    · simp [hsum]

/-- Collaborator events of a successful write-buffer construction: one
dirty mark for the descriptor's whole extent, then the pointer extraction,
in descriptor order. -/
def eventsFor : List Descriptor → Nat → List MutEvent
  | [], _ => []
  | d :: rest, idx => .markDirty idx 0 d.len :: .getPtr idx :: eventsFor rest (idx + 1)

/-- On a chain of guest-writable, translatable descriptors the write-buffer
constructor succeeds, emitting exactly the per-descriptor event sequence,
with one segment per descriptor and the cached length their sum. -/
theorem from_descriptor_chain_aux_ok (m : GuestMem) :
    ∀ (descs : List Descriptor) (idx : Nat),
      (∀ d ∈ descs, d.writeOnly = true) →
      (∀ d ∈ descs, d.addr + d.len ≤ m.size) →
      ∃ b, IoVecBufferMut.from_descriptor_chain_aux m descs idx =
          (eventsFor descs idx, .ok b) ∧
        b.len = totalLen b.vecs ∧
        b.vecs.map List.length = descs.map Descriptor.len ∧
        b.len = (descs.map Descriptor.len).sum
  | [], idx, _, _ => ⟨⟨[], 0⟩, rfl, by simp [totalLen], by simp, by simp⟩
  | d :: rest, idx, hw, ht => by
    obtain ⟨b, hb, hlen, hmap, hsum⟩ := from_descriptor_chain_aux_ok m rest (idx + 1)
      (fun e he => hw e (List.mem_cons_of_mem d he))
      (fun e he => ht e (List.mem_cons_of_mem d he))
    refine ⟨⟨((List.range d.len).map fun i => m.bytes (d.addr + i)) :: b.vecs,
      d.len + b.len⟩, ?_, ?_, ?_, ?_⟩
    · rw [from_descriptor_chain_aux_cons_eq,
        if_neg (by simp [hw d (List.mem_cons_self d rest)]),
        get_slice_eq m d.addr d.len (ht d (List.mem_cons_self d rest)), hb]
      rfl
    · rw [totalLen_cons]
      simp only [List.length_map, List.length_range]
      omega
    · simp [hmap]
    · simp [hsum]

/-- Exactly one dirty mark per descriptor. -/
theorem eventsFor_marks :
    ∀ (descs : List Descriptor) (idx : Nat),
      ((eventsFor descs idx).filter MutEvent.isMark).length = descs.length
  | [], _ => rfl
  | d :: rest, idx => by
    simp only [eventsFor, List.filter_cons, MutEvent.isMark]
    simp [eventsFor_marks rest (idx + 1)]

/-- The event positions of descriptor `k`: its dirty mark (covering its
whole extent) sits at position `2k`, directly before its pointer
extraction at position `2k + 1`. -/
theorem eventsFor_getElem :
    ∀ (descs : List Descriptor) (idx k : Nat) (d : Descriptor),
      descs[k]? = some d →
      (eventsFor descs idx)[2 * k]? = some (.markDirty (idx + k) 0 d.len) ∧
      (eventsFor descs idx)[2 * k + 1]? = some (.getPtr (idx + k))
  | [], idx, k, d => by
    intro h
    simp at h
  | d0 :: rest, idx, 0, d => by
    intro h
    rw [List.getElem?_cons_zero] at h
    have hd : d0 = d := Option.some.inj h
    subst hd
    simp [eventsFor]
  | d0 :: rest, idx, k + 1, d => by
    intro h
    rw [List.getElem?_cons_succ] at h
    have h2 : rest[k]? = some d := h
    obtain ⟨h3, h4⟩ := eventsFor_getElem rest (idx + 1) k d h2
    constructor
    · rw [(show 2 * (k + 1) = (2 * k + 1) + 1 from by omega), eventsFor,
        List.getElem?_cons_succ, List.getElem?_cons_succ, h3,
        (show idx + 1 + k = idx + (k + 1) from by omega)]
    · rw [(show 2 * (k + 1) + 1 = ((2 * k + 1) + 1) + 1 from by omega), eventsFor,
        List.getElem?_cons_succ, List.getElem?_cons_succ, h4,
        (show idx + 1 + k = idx + (k + 1) from by omega)]

/-- If every descriptor before the first write-only one is translatable,
read-buffer construction fails exactly with `WriteOnlyDescriptor`. -/
theorem from_descriptor_chain_first_writeonly (m : GuestMem) :
    ∀ (pre : List Descriptor) (d : Descriptor) (post : List Descriptor),
      d.writeOnly = true →
      (∀ e ∈ pre, e.writeOnly = false) →
      (∀ e ∈ pre, e.addr + e.len ≤ m.size) →
      IoVecBuffer.from_descriptor_chain m (pre ++ d :: post) =
        .error .WriteOnlyDescriptor
  | [], d, post, hd, _, _ => by
    rw [List.nil_append, from_descriptor_chain_cons_eq, if_pos (by simp [hd])]
  | p :: pre, d, post, hd, hw, ht => by
    rw [List.cons_append, from_descriptor_chain_cons_eq,
      if_neg (by simp [hw p (List.mem_cons_self p pre)]),
      get_slice_eq m p.addr p.len (ht p (List.mem_cons_self p pre)),
      from_descriptor_chain_first_writeonly m pre d post hd
        (fun e he => hw e (List.mem_cons_of_mem p he))
        (fun e he => ht e (List.mem_cons_of_mem p he))]

/-- If every descriptor before the first non-write-only one is translatable,
write-buffer construction fails exactly with `ReadOnlyDescriptor`. -/
theorem from_descriptor_chain_aux_first_readonly (m : GuestMem) :
    ∀ (pre : List Descriptor) (d : Descriptor) (post : List Descriptor) (idx : Nat),
      d.writeOnly = false →
      (∀ e ∈ pre, e.writeOnly = true) →
      (∀ e ∈ pre, e.addr + e.len ≤ m.size) →
      (IoVecBufferMut.from_descriptor_chain_aux m (pre ++ d :: post) idx).2 =
        .error .ReadOnlyDescriptor
  | [], d, post, idx, hd, _, _ => by
    rw [List.nil_append, from_descriptor_chain_aux_cons_eq, if_pos (by simp [hd])]
  | p :: pre, d, post, idx, hd, hw, ht => by
    rw [List.cons_append, from_descriptor_chain_aux_cons_eq,
      if_neg (by simp [hw p (List.mem_cons_self p pre)]),
      get_slice_eq m p.addr p.len (ht p (List.mem_cons_self p pre))]
    have ih := from_descriptor_chain_aux_first_readonly m pre d post (idx + 1) hd
      (fun e he => hw e (List.mem_cons_of_mem p he))
      (fun e he => ht e (List.mem_cons_of_mem p he))
    rcases haux : IoVecBufferMut.from_descriptor_chain_aux m (pre ++ d :: post) (idx + 1)
      with ⟨evs, res⟩
    rw [haux] at ih
    simp only at ih
    subst ih
    rfl

/-- A chain containing a write-only descriptor never yields a read buffer,
whatever the error. -/
theorem from_descriptor_chain_writeonly_fails (m : GuestMem) :
    ∀ (descs : List Descriptor), (∃ d ∈ descs, d.writeOnly = true) →
      ∀ b, IoVecBuffer.from_descriptor_chain m descs ≠ .ok b
  | [], h => by
    simp at h
  | d :: rest, h => by
    intro b hok
    rw [from_descriptor_chain_cons_eq] at hok
    by_cases hd : d.writeOnly
    · rw [if_pos hd] at hok
      exact absurd hok (by simp)
    rw [if_neg hd] at hok
    obtain ⟨v, hv, hvw⟩ := h
    have hvrest : v ∈ rest := by
      rcases List.mem_cons.mp hv with rfl | hr
      · exact absurd hvw (by simpa using hd)
      · exact hr
    rcases hslice : m.get_slice d.addr d.len with _ | data
    · rw [hslice] at hok
      exact absurd hok (by simp)
    rw [hslice] at hok
    rcases hrec : IoVecBuffer.from_descriptor_chain m rest with e2 | b2
    · rw [hrec] at hok
      exact absurd hok (by simp)
    · exact from_descriptor_chain_writeonly_fails m rest ⟨v, hvrest, hvw⟩ b2 hrec

/-- A chain containing a non-write-only descriptor never yields a write
buffer, whatever the error. -/
theorem from_descriptor_chain_aux_readonly_fails (m : GuestMem) :
    ∀ (descs : List Descriptor) (idx : Nat), (∃ d ∈ descs, d.writeOnly = false) →
      ∀ b evs, IoVecBufferMut.from_descriptor_chain_aux m descs idx ≠ (evs, .ok b)
  | [], idx, h => by
    simp at h
  | d :: rest, idx, h => by
    intro b evs hok
    rw [from_descriptor_chain_aux_cons_eq] at hok
    by_cases hd : d.writeOnly
    · rw [if_neg (by simp [hd])] at hok
      obtain ⟨v, hv, hvw⟩ := h
      have hvrest : v ∈ rest := by
        rcases List.mem_cons.mp hv with rfl | hr
        · exact absurd hd (by simp [hvw])
        · exact hr
      rcases hslice : m.get_slice d.addr d.len with _ | data
      · rw [hslice] at hok
        exact absurd hok (by simp)
      rw [hslice] at hok
      rcases hrec : IoVecBufferMut.from_descriptor_chain_aux m rest (idx + 1)
        with ⟨evs2, res2⟩
      rw [hrec] at hok
      cases res2 with
      | error e2 =>
        simp at hok
      | ok b2 =>
        exact from_descriptor_chain_aux_readonly_fails m rest (idx + 1)
          ⟨v, hvrest, hvw⟩ b2 evs2 hrec
    · rw [if_pos (by simp [hd])] at hok
      simp at hok

/-- The write loop at a covered segment when the retry loop yields bytes. -/
theorem writeVolLoop_covered_ok {σ : Type} (ep : ByteSrc σ) (fuel : Nat)
    (iov : List Byte) (rest : List (List Byte)) (offset len : Nat) (s : σ) (total : Nat)
    (tr : List (Nat × SrcResp)) (s1 : σ) (bs : List Byte)
    (h0 : ¬len = 0) (h1 : ¬iov.length ≤ offset)
    (hr : retryR ep (min (iov.length - offset) len) fuel s = some (tr, s1, .ok bs)) :
    writeVolLoop ep fuel (iov :: rest) offset len s total =
      if (bs.take (min (iov.length - offset) len)).length <
          min (iov.length - offset) len then
        some ⟨tr, .ok (total + (bs.take (min (iov.length - offset) len)).length),
          (iov.take offset ++ bs.take (min (iov.length - offset) len) ++
            iov.drop (offset + (bs.take (min (iov.length - offset) len)).length)) ::
            rest, s1⟩
      else
        match writeVolLoop ep fuel rest 0
            (len - (bs.take (min (iov.length - offset) len)).length) s1
            (total + (bs.take (min (iov.length - offset) len)).length) with
        | none => none
        | some out =>
          some ⟨tr ++ out.trace, out.res,
            (iov.take offset ++ bs.take (min (iov.length - offset) len) ++
              iov.drop (offset + (bs.take (min (iov.length - offset) len)).length)) ::
              out.vecs, out.src⟩ := by
  rw [writeVolLoop_covered_eq ep fuel iov rest offset len s total h0 h1, hr]

/-- The write loop at a covered segment when the retry loop fails: the
error is returned and the segments are left as they were. -/
theorem writeVolLoop_covered_err {σ : Type} (ep : ByteSrc σ) (fuel : Nat)
    (iov : List Byte) (rest : List (List Byte)) (offset len : Nat) (s : σ) (total : Nat)
    (tr : List (Nat × SrcResp)) (s1 : σ) (e : Nat)
    (h0 : ¬len = 0) (h1 : ¬iov.length ≤ offset)
    (hr : retryR ep (min (iov.length - offset) len) fuel s = some (tr, s1, .error e)) :
    writeVolLoop ep fuel (iov :: rest) offset len s total =
      some ⟨tr, .error e, iov :: rest, s1⟩ := by
  rw [writeVolLoop_covered_eq ep fuel iov rest offset len s total h0 h1, hr]

/-- The write loop never changes the number of segments or any segment's
length: it only overwrites bytes in place. -/
theorem writeVolLoop_shape {σ : Type} (ep : ByteSrc σ) (fuel : Nat) :
    ∀ (vecs : List (List Byte)) (offset len : Nat) (s : σ) (total : Nat)
      (out : WVOut σ),
      writeVolLoop ep fuel vecs offset len s total = some out →
      out.vecs.map List.length = vecs.map List.length
  | [], offset, len, s, total, out => by
    intro h
    rw [writeVolLoop_nil_eq] at h
    obtain rfl := Option.some.inj h
    rfl
  | iov :: rest, offset, len, s, total, out => by
    intro h
    by_cases h0 : len = 0
    · subst h0
      rw [writeVolLoop_len_zero] at h
      obtain rfl := Option.some.inj h
      rfl
    by_cases h1 : iov.length ≤ offset
    · rw [writeVolLoop_skip_eq ep fuel iov rest offset len s total h0 h1] at h
      rcases hrec : writeVolLoop ep fuel rest (offset - iov.length) len s total with _ | out2
      · rw [hrec] at h
        exact absurd h (by simp)
      rw [hrec] at h
      obtain rfl := Option.some.inj h
      have ih := writeVolLoop_shape ep fuel rest (offset - iov.length) len s total out2 hrec
      simp only [List.map_cons, ih]
    rcases hr : retryR ep (min (iov.length - offset) len) fuel s with _ | ⟨tr0, s1, r⟩
    · rw [writeVolLoop_covered_eq ep fuel iov rest offset len s total h0 h1, hr] at h
      exact absurd h (by simp)
    cases r with
    | error e =>
      rw [writeVolLoop_covered_err ep fuel iov rest offset len s total tr0 s1 e h0 h1 hr] at h
      obtain rfl := Option.some.inj h
      rfl
    | ok bs =>
      rw [writeVolLoop_covered_ok ep fuel iov rest offset len s total tr0 s1 bs h0 h1 hr] at h
      by_cases hshort : (bs.take (min (iov.length - offset) len)).length <
          min (iov.length - offset) len
      · rw [if_pos hshort] at h
        obtain rfl := Option.some.inj h
        simp only [List.map_cons, List.cons.injEq]
        refine ⟨?_, trivial⟩
        simp only [List.length_append, List.length_take, List.length_drop]
        omega
      · rw [if_neg hshort] at h
        rcases hrec : writeVolLoop ep fuel rest 0
            (len - (bs.take (min (iov.length - offset) len)).length) s1
            (total + (bs.take (min (iov.length - offset) len)).length) with _ | out2
        · rw [hrec] at h
          exact absurd h (by simp)
        rw [hrec] at h
        obtain rfl := Option.some.inj h
        have ih := writeVolLoop_shape ep fuel rest 0
          (len - (bs.take (min (iov.length - offset) len)).length) s1
          (total + (bs.take (min (iov.length - offset) len)).length) out2 hrec
        simp only [List.map_cons, List.cons.injEq]
        refine ⟨?_, ih⟩
        simp only [List.length_append, List.length_take, List.length_drop]
        omega

/-- The slice sink accepts at most the sub-range it is offered. -/
theorem sliceSink_WB : sliceSink.WB := by
  intro s slice n s1 h
  have h2 : (SinkResp.ok (min slice.length s.1),
      ((s.1 - min slice.length s.1, s.2 ++ slice.take (min slice.length s.1)) :
        Nat × List Byte)) = (.ok n, s1) := h
  injection h2 with h3 h4
  injection h3 with h5
  omega

/-- A scripted source that yields a full first reply and then fails: the
first segment keeps the bytes it received, the error is returned, and
nothing is rolled back. -/
theorem writeVolLoop_no_rollback (fuel len : Nat) (v w : List Byte)
    (rest : List (List Byte)) (bs : List Byte) (e : Nat)
    (hbs : bs.length = v.length) (hv : 0 < v.length) (hlen : v.length < len)
    (hw : 0 < w.length) :
    writeVolLoop scriptSrc fuel (v :: w :: rest) 0 len
        [SrcResp.ok bs, SrcResp.err e] 0 =
      some ⟨[(v.length, SrcResp.ok bs), (min w.length (len - v.length), SrcResp.err e)],
        .error e, bs :: w :: rest, []⟩ := by
  have h0 : ¬len = 0 := by omega
  have h1 : ¬v.length ≤ 0 := by omega
  have hstep1 : scriptSrc.step [SrcResp.ok bs, SrcResp.err e]
      (min (v.length - 0) len) = (.ok bs, [SrcResp.err e]) := rfl
  have hr1 := retryR_ok_eq scriptSrc (min (v.length - 0) len) fuel
    [SrcResp.ok bs, SrcResp.err e] [SrcResp.err e] bs hstep1
  rw [writeVolLoop_covered_ok scriptSrc fuel v (w :: rest) 0 len
    [SrcResp.ok bs, SrcResp.err e] 0 [(min (v.length - 0) len, .ok bs)]
    [SrcResp.err e] bs h0 h1 hr1]
  rw [(show min (v.length - 0) len = v.length from by omega)]
  have htake : bs.take v.length = bs := by
    rw [← hbs]
    exact List.take_length bs
  rw [htake, if_neg (show ¬bs.length < v.length from by omega)]
  have h0b : ¬len - bs.length = 0 := by omega
  have h1b : ¬w.length ≤ 0 := by omega
  have hstep2 : scriptSrc.step [SrcResp.err e]
      (min (w.length - 0) (len - bs.length)) = (.err e, []) := rfl
  have hr2 := retryR_err_eq scriptSrc (min (w.length - 0) (len - bs.length)) fuel
    [SrcResp.err e] [] e hstep2
  rw [writeVolLoop_covered_err scriptSrc fuel w rest 0 (len - bs.length)
    [SrcResp.err e] (0 + bs.length) [(min (w.length - 0) (len - bs.length), .err e)]
    [] e h0b h1b hr2]
  rw [(show min (w.length - 0) (len - bs.length) = min w.length (len - v.length)
    from by omega)]
  rw [List.take_zero, List.nil_append]
  rw [(show v.drop (0 + bs.length) = [] from by
    rw [(show (0 : Nat) + bs.length = v.length from by omega)]
    exact List.drop_length v)]
  rw [List.append_nil]
  rfl

/-- C1: `read_at` returns the absent result exactly when the offset is at or
past the total length, and otherwise returns `min (buf.len, total_length -
offset)`; symmetrically for `write_at` on write buffers. -/
theorem C1_read_write_at_contract (b : IoVecBuffer) (bm : IoVecBufferMut)
    (bufLen offset : Nat) (buf : List Byte) (offsetm : Nat)
    (hinv : b.len = totalLen b.vecs) (hinvm : bm.len = totalLen bm.vecs) :
    (b.read_at bufLen offset = none ↔ b.len ≤ offset) ∧
    (offset < b.len → ∃ received, b.read_at bufLen offset =
      some (min bufLen (b.len - offset), received)) ∧
    (bm.write_at buf offsetm = none ↔ bm.len ≤ offsetm) ∧
    (offsetm < bm.len → ∃ vecs1, bm.write_at buf offsetm =
      some (min buf.length (bm.len - offsetm), vecs1)) := by
  refine ⟨⟨?_, read_at_none b bufLen offset⟩, ?_, ⟨?_, write_at_none bm buf offsetm⟩, ?_⟩
  · intro h
    by_contra hlt
    push_neg at hlt
    rw [read_at_eval b hinv bufLen offset hlt] at h
    exact absurd h (by simp)
  · intro hlt
    exact ⟨_, read_at_eval b hinv bufLen offset hlt⟩
  · intro h
    by_contra hlt
    push_neg at hlt
    obtain ⟨vecs1, hw, _, _⟩ := write_at_eval bm hinvm buf offsetm hlt
    rw [hw] at h
    exact absurd h (by simp)
  · intro hlt
    obtain ⟨vecs1, hw, _, _⟩ := write_at_eval bm hinvm buf offsetm hlt
    exact ⟨vecs1, hw⟩

/-- C1 witness: a concrete two-segment read buffer and write buffer. -/
theorem C1_read_write_at_contract_w :
    (IoVecBuffer.read_at ⟨[[10, 11, 12], [20, 21]], 5⟩ 3 1 = none ↔ (5 : Nat) ≤ 1) ∧
    (1 < 5 → ∃ received, IoVecBuffer.read_at ⟨[[10, 11, 12], [20, 21]], 5⟩ 3 1 =
      some (min 3 (5 - 1), received)) ∧
    (IoVecBufferMut.write_at ⟨[[0, 0], [0]], 3⟩ [7, 8] 2 = none ↔ (3 : Nat) ≤ 2) ∧
    (2 < 3 → ∃ vecs1, IoVecBufferMut.write_at ⟨[[0, 0], [0]], 3⟩ [7, 8] 2 =
      some (min 2 (3 - 2), vecs1)) :=
  C1_read_write_at_contract ⟨[[10, 11, 12], [20, 21]], 5⟩ ⟨[[0, 0], [0]], 3⟩ 3 1 [7, 8] 2
    (by decide) (by decide)

/-- A 64-byte all-zero segment. -/
def zeros64 : List Byte := List.replicate 64 0

/-- The 4-segment, 64-bytes-each write buffer of the spec's scenario A. -/
def mutBuf4x64 : IoVecBufferMut := ⟨[zeros64, zeros64, zeros64, zeros64], 256⟩

/-- C2: a transfer moves exactly the flattened segment bytes at the
requested positions, split across segment boundaries — segments before the
offset are skipped, the first covered segment is entered at the residual
offset, later segments continue from their start, clipped to the budget;
concretely, on a 4x64-byte write buffer a 5-byte write at offset 60 puts 4
bytes at segment 0's tail and 1 byte at segment 1's head, and a 5-byte
write at offset 252 moves only 4 bytes and returns 4. -/
theorem C2_boundary_split (b : IoVecBuffer) (bm : IoVecBufferMut)
    (bufLen offset : Nat) (buf : List Byte) (offsetm : Nat)
    (hinv : b.len = totalLen b.vecs) (hinvm : bm.len = totalLen bm.vecs)
    (h : offset < b.len) (hm : offsetm < bm.len) :
    (b.read_at bufLen offset =
      some (min bufLen (b.len - offset),
        (b.vecs.flatten.drop offset).take (min bufLen (b.len - offset)))) ∧
    (∃ vecs1, bm.write_at buf offsetm =
        some (min buf.length (bm.len - offsetm), vecs1) ∧
      vecs1.map List.length = bm.vecs.map List.length ∧
      vecs1.flatten = bm.vecs.flatten.take offsetm ++
        buf.take (min buf.length (bm.len - offsetm)) ++
        bm.vecs.flatten.drop (offsetm + min buf.length (bm.len - offsetm))) ∧
    (mutBuf4x64.write_at [1, 2, 3, 4, 5] 60 =
      some (5, [List.replicate 60 0 ++ [1, 2, 3, 4], 5 :: List.replicate 63 0,
        zeros64, zeros64])) ∧
    (mutBuf4x64.write_at [1, 2, 3, 4, 5] 252 =
      some (4, [zeros64, zeros64, zeros64, List.replicate 60 0 ++ [1, 2, 3, 4]])) :=
  ⟨read_at_eval b hinv bufLen offset h, write_at_eval bm hinvm buf offsetm hm,
    by decide, by decide⟩

/-- C3 counterexample: a chain whose only wrong-direction descriptor is
preceded by an untranslatable one fails with `GuestMemory`, not with the
direction-mismatch error the claim promises. -/
theorem C3_direction_mismatch_cex :
    (∃ d ∈ [Descriptor.mk 0 1 false, Descriptor.mk 0 0 true], d.writeOnly = true) ∧
    IoVecBuffer.from_descriptor_chain ⟨0, fun i => i⟩
      [Descriptor.mk 0 1 false, Descriptor.mk 0 0 true] = .error .GuestMemory ∧
    IoVecBuffer.from_descriptor_chain ⟨0, fun i => i⟩
      [Descriptor.mk 0 1 false, Descriptor.mk 0 0 true] ≠ .error .WriteOnlyDescriptor :=
  ⟨by decide, by decide, by decide⟩

/-- C3 (amended): construction fails with the direction-mismatch error at
the first wrong-direction descriptor provided every earlier descriptor is
translatable; and whenever a wrong-direction descriptor is present, no
buffer value is produced at all. -/
theorem C3_direction_mismatch (m : GuestMem) (pre post descs : List Descriptor)
    (d : Descriptor) :
    (d.writeOnly = true → (∀ e ∈ pre, e.writeOnly = false) →
      (∀ e ∈ pre, e.addr + e.len ≤ m.size) →
      IoVecBuffer.from_descriptor_chain m (pre ++ d :: post) =
        .error .WriteOnlyDescriptor) ∧
    (d.writeOnly = false → (∀ e ∈ pre, e.writeOnly = true) →
      (∀ e ∈ pre, e.addr + e.len ≤ m.size) →
      (IoVecBufferMut.from_descriptor_chain m (pre ++ d :: post)).2 =
        .error .ReadOnlyDescriptor) ∧
    ((∃ e ∈ descs, e.writeOnly = true) →
      ∀ b, IoVecBuffer.from_descriptor_chain m descs ≠ .ok b) ∧
    ((∃ e ∈ descs, e.writeOnly = false) →
      ∀ b evs, IoVecBufferMut.from_descriptor_chain m descs ≠ (evs, .ok b)) := by
  refine ⟨?_, ?_, ?_, ?_⟩
  · intro hd hw ht
    exact from_descriptor_chain_first_writeonly m pre d post hd hw ht
  · intro hd hw ht
    exact from_descriptor_chain_aux_first_readonly m pre d post 0 hd hw ht
  · intro hex b
    exact from_descriptor_chain_writeonly_fails m descs hex b
  · intro hex b evs
    exact from_descriptor_chain_aux_readonly_fails m descs 0 hex b evs

/-- C3 witness: a translatable right-direction descriptor followed by a
wrong-direction one fails with the direction-mismatch error; and a chain
with a wrong-direction descriptor yields no buffer. -/
theorem C3_direction_mismatch_w :
    (IoVecBuffer.from_descriptor_chain ⟨4, fun i => i⟩
      [Descriptor.mk 0 2 false, Descriptor.mk 2 1 true] =
        .error .WriteOnlyDescriptor) ∧
    (IoVecBuffer.from_descriptor_chain ⟨0, fun i => i⟩
      [Descriptor.mk 0 1 false, Descriptor.mk 0 0 true] ≠
        .ok (IoVecBuffer.mk [] 0)) :=
  ⟨(C3_direction_mismatch ⟨4, fun i => i⟩ [Descriptor.mk 0 2 false] [] []
      (Descriptor.mk 2 1 true)).1 (by decide) (by decide) (by decide),
    (C3_direction_mismatch ⟨0, fun i => i⟩ [] []
      [Descriptor.mk 0 1 false, Descriptor.mk 0 0 true]
      (Descriptor.mk 0 0 true)).2.2.1 (by decide) (IoVecBuffer.mk [] 0)⟩

/-- C4 counterexample: a chain in which every descriptor has the matching
direction but one is untranslatable makes construction fail with
`GuestMemory` instead of succeeding. -/
theorem C4_construction_invariant_cex :
    (∀ d ∈ [Descriptor.mk 0 1 false], d.writeOnly = false) ∧
    IoVecBuffer.from_descriptor_chain ⟨0, fun i => i⟩ [Descriptor.mk 0 1 false] =
      .error .GuestMemory :=
  ⟨by decide, by decide⟩

/-- C4 (amended): on a chain of matching-direction, translatable
descriptors construction succeeds, with `total_length` equal to the sum of
the segment lengths and to the sum of the descriptor lengths; and write
transfers never change the number of segments or any segment's length. -/
theorem C4_construction_invariant (m : GuestMem) (descs : List Descriptor) :
    ((∀ d ∈ descs, d.writeOnly = false) → (∀ d ∈ descs, d.addr + d.len ≤ m.size) →
      ∃ b, IoVecBuffer.from_descriptor_chain m descs = .ok b ∧
        b.len = totalLen b.vecs ∧ b.vecs.map List.length = descs.map Descriptor.len ∧
        b.len = (descs.map Descriptor.len).sum) ∧
    ((∀ d ∈ descs, d.writeOnly = true) → (∀ d ∈ descs, d.addr + d.len ≤ m.size) →
      ∃ b evs, IoVecBufferMut.from_descriptor_chain m descs = (evs, .ok b) ∧
        b.len = totalLen b.vecs ∧ b.vecs.map List.length = descs.map Descriptor.len ∧
        b.len = (descs.map Descriptor.len).sum) ∧
    (∀ {σ : Type} (ep : ByteSrc σ) (bm : IoVecBufferMut) (s : σ)
        (offset len fuel : Nat) (out : WVOut σ),
      bm.write_volatile_at ep s offset len fuel = some out →
      out.vecs.map List.length = bm.vecs.map List.length) := by
  refine ⟨?_, ?_, ?_⟩
  · intro hw ht
    exact from_descriptor_chain_ok m descs hw ht
  · intro hw ht
    obtain ⟨b, hb, h1, h2, h3⟩ := from_descriptor_chain_aux_ok m descs 0 hw ht
    exact ⟨b, eventsFor descs 0, hb, h1, h2, h3⟩
  · intro σ ep bm s offset len fuel out h
    exact writeVolLoop_shape ep fuel bm.vecs offset len s 0 out h

/-- C4 witness: a translatable two-descriptor read chain. -/
theorem C4_construction_invariant_w :
    ∃ b, IoVecBuffer.from_descriptor_chain ⟨4, fun i => i⟩
        [Descriptor.mk 0 2 false, Descriptor.mk 2 2 false] = .ok b ∧
      b.len = totalLen b.vecs ∧
      b.vecs.map List.length =
        [Descriptor.mk 0 2 false, Descriptor.mk 2 2 false].map Descriptor.len ∧
      b.len = ([Descriptor.mk 0 2 false, Descriptor.mk 2 2 false].map
        Descriptor.len).sum :=
  (C4_construction_invariant ⟨4, fun i => i⟩
    [Descriptor.mk 0 2 false, Descriptor.mk 2 2 false]).1 (by decide) (by decide)

/-- C5: an interrupted endpoint call is retried on the same sub-range and
never surfaced — the loop's result is insensitive to interruptions — while
any other endpoint failure immediately aborts the transfer with that
error, and bytes already moved into earlier segments are not rolled
back. -/
theorem C5_interrupt_retry_error_abort :
    (∀ {σ : Type} (ep : ByteSink σ) (b : IoVecBuffer) (s : σ)
        (offset len fuel : Nat) (out : RVOut σ),
      b.read_volatile_at ep s offset len fuel = some out →
      (∀ k sl, out.trace[k]? = some (sl, SinkResp.intr) →
        ∃ r2, out.trace[k + 1]? = some (sl, r2)) ∧
      (∀ k sl e, out.trace[k]? = some (sl, SinkResp.err e) →
        out.trace.length = k + 1 ∧ out.res = .error e)) ∧
    (∀ {σ : Type} (ep : ByteSrc σ) (bm : IoVecBufferMut) (s : σ)
        (offset len fuel : Nat) (out : WVOut σ),
      bm.write_volatile_at ep s offset len fuel = some out →
      (∀ k sl, out.trace[k]? = some (sl, SrcResp.intr) →
        ∃ r2, out.trace[k + 1]? = some (sl, r2)) ∧
      (∀ k sl e, out.trace[k]? = some (sl, SrcResp.err e) →
        out.trace.length = k + 1 ∧ out.res = .error e)) ∧
    (∀ (b : IoVecBuffer) (offset len fuel fuel2 : Nat) (script : List SinkResp),
      intrCountS script ≤ fuel →
      (b.read_volatile_at scriptSink script offset len fuel).map RVOut.res =
        (b.read_volatile_at scriptSink (deintrS script) offset len fuel2).map
          RVOut.res) ∧
    (∀ (fuel len : Nat) (v w : List Byte) (rest : List (List Byte))
        (bs : List Byte) (e : Nat),
      bs.length = v.length → 0 < v.length → v.length < len → 0 < w.length →
      writeVolLoop scriptSrc fuel (v :: w :: rest) 0 len
          [SrcResp.ok bs, SrcResp.err e] 0 =
        some ⟨[(v.length, SrcResp.ok bs),
            (min w.length (len - v.length), SrcResp.err e)],
          .error e, bs :: w :: rest, []⟩) := by
  refine ⟨?_, ?_, ?_, ?_⟩
  · intro σ ep b s offset len fuel out h
    obtain ⟨h1, h2, _, _⟩ := readVolLoop_trace ep fuel b.vecs offset len s 0 out h
    exact ⟨h1, h2⟩
  · intro σ ep bm s offset len fuel out h
    obtain ⟨h1, h2, _, _⟩ := writeVolLoop_trace ep fuel bm.vecs offset len s 0 out h
    exact ⟨h1, h2⟩
  · intro b offset len fuel fuel2 script hfuel
    exact readVolLoop_deintr fuel fuel2 b.vecs offset len script 0 hfuel
  · exact writeVolLoop_no_rollback

/-- C5 witness: a full first reply then an error — the error is returned
and the first segment keeps the bytes it received. -/
theorem C5_interrupt_retry_error_abort_w :
    writeVolLoop scriptSrc 0 [[0, 0], [9]] 0 5 [SrcResp.ok [1, 2], SrcResp.err 7] 0 =
      some ⟨[(2, SrcResp.ok [1, 2]), (min 1 (5 - 2), SrcResp.err 7)],
        .error 7, [[1, 2], [9]], []⟩ :=
  C5_interrupt_retry_error_abort.2.2.2 0 5 [0, 0] [9] [] [1, 2] 7
    (by decide) (by decide) (by decide) (by decide)

/-- C6: a short endpoint reply is the last endpoint call of the walk even
when budget and segments remain, and the returned total counts the bytes
of every successful call, the short one included. -/
theorem C6_short_transfer_stops :
    (∀ {σ : Type} (ep : ByteSink σ) (b : IoVecBuffer) (s : σ)
        (offset len fuel : Nat) (out : RVOut σ),
      b.read_volatile_at ep s offset len fuel = some out →
      ∀ k sl n, out.trace[k]? = some (sl, SinkResp.ok n) → n < sl.length →
        out.trace.length = k + 1 ∧ out.res = .ok (sumOkSink out.trace)) ∧
    (∀ {σ : Type} (ep : ByteSrc σ) (bm : IoVecBufferMut) (s : σ)
        (offset len fuel : Nat) (out : WVOut σ),
      bm.write_volatile_at ep s offset len fuel = some out →
      ∀ k sl bs, out.trace[k]? = some (sl, SrcResp.ok bs) → bs.length < sl →
        out.trace.length = k + 1 ∧ out.res = .ok (sumOkSrc out.trace)) := by
  constructor
  · intro σ ep b s offset len fuel out h k sl n hk hshort
    obtain ⟨_, _, h3, _⟩ := readVolLoop_trace ep fuel b.vecs offset len s 0 out h
    obtain ⟨hl, hres⟩ := h3 k sl n hk hshort
    exact ⟨hl, by rw [hres, Nat.zero_add]⟩
  · intro σ ep bm s offset len fuel out h k sl bs hk hshort
    obtain ⟨_, _, h3, _⟩ := writeVolLoop_trace ep fuel bm.vecs offset len s 0 out h
    obtain ⟨hl, hres⟩ := h3 k sl bs hk hshort
    exact ⟨hl, by rw [hres, Nat.zero_add]⟩

/-- C6 witness: a sink that accepts 1 byte of a 2-byte slice ends the walk
with total 1 although budget and a second segment remain. -/
theorem C6_short_transfer_stops_w :
    ([([5, 6], SinkResp.ok 1)] : List (List Byte × SinkResp)).length = 0 + 1 ∧
    (Except.ok 1 : Except Nat Nat) = .ok (sumOkSink [([5, 6], SinkResp.ok 1)]) :=
  C6_short_transfer_stops.1 scriptSink ⟨[[5, 6], [7]], 3⟩ [SinkResp.ok 1] 0 3 0
    ⟨[([5, 6], SinkResp.ok 1)], .ok 1, []⟩ (by decide) 0 [5, 6] 1 (by decide) (by decide)

/-- C7: building a write buffer over N guest-writable, translatable
descriptors issues exactly N dirty marks, one per descriptor covering its
whole extent, each placed directly before that descriptor's pointer
extraction in the event trace. -/
theorem C7_dirty_marks (m : GuestMem) (descs : List Descriptor)
    (hw : ∀ d ∈ descs, d.writeOnly = true)
    (ht : ∀ d ∈ descs, d.addr + d.len ≤ m.size) :
    ∃ b, IoVecBufferMut.from_descriptor_chain m descs = (eventsFor descs 0, .ok b) ∧
      ((eventsFor descs 0).filter MutEvent.isMark).length = descs.length ∧
      ∀ k d, descs[k]? = some d →
        (eventsFor descs 0)[2 * k]? = some (.markDirty k 0 d.len) ∧
        (eventsFor descs 0)[2 * k + 1]? = some (.getPtr k) := by
  obtain ⟨b, hb, _, _, _⟩ := from_descriptor_chain_aux_ok m descs 0 hw ht
  refine ⟨b, hb, eventsFor_marks descs 0, ?_⟩
  intro k d hk
  obtain ⟨h1, h2⟩ := eventsFor_getElem descs 0 k d hk
  rw [Nat.zero_add] at h1 h2
  exact ⟨h1, h2⟩

/-- C7 witness: a concrete two-descriptor write chain. -/
theorem C7_dirty_marks_w :
    ∃ b, IoVecBufferMut.from_descriptor_chain ⟨4, fun i => i⟩
        [Descriptor.mk 0 2 true, Descriptor.mk 2 1 true] =
        (eventsFor [Descriptor.mk 0 2 true, Descriptor.mk 2 1 true] 0, .ok b) ∧
      ((eventsFor [Descriptor.mk 0 2 true, Descriptor.mk 2 1 true] 0).filter
        MutEvent.isMark).length = 2 ∧
      ∀ k d, [Descriptor.mk 0 2 true, Descriptor.mk 2 1 true][k]? = some d →
        (eventsFor [Descriptor.mk 0 2 true, Descriptor.mk 2 1 true] 0)[2 * k]? =
          some (.markDirty k 0 d.len) ∧
        (eventsFor [Descriptor.mk 0 2 true, Descriptor.mk 2 1 true] 0)[2 * k + 1]? =
          some (.getPtr k) :=
  C7_dirty_marks ⟨4, fun i => i⟩ [Descriptor.mk 0 2 true, Descriptor.mk 2 1 true]
    (by decide) (by decide)

/-- C8: the absent result of `read_at`/`write_at` arises exactly from the
offset-past-end condition; a zero-byte transfer at a valid offset is the
distinct present result `(0, ...)`. -/
theorem C8_absent_only_past_end (b : IoVecBuffer) (bm : IoVecBufferMut)
    (bufLen offset : Nat) (buf : List Byte) (offsetm : Nat)
    (hinv : b.len = totalLen b.vecs) (hinvm : bm.len = totalLen bm.vecs) :
    (b.read_at bufLen offset = none ↔ b.len ≤ offset) ∧
    (offset < b.len → b.read_at 0 offset = some (0, [])) ∧
    (bm.write_at buf offsetm = none ↔ bm.len ≤ offsetm) ∧
    (offsetm < bm.len → ∃ vecs1, bm.write_at [] offsetm = some (0, vecs1)) := by
  refine ⟨⟨?_, read_at_none b bufLen offset⟩, ?_, ⟨?_, write_at_none bm buf offsetm⟩, ?_⟩
  · intro h
    by_contra hlt
    push_neg at hlt
    rw [read_at_eval b hinv bufLen offset hlt] at h
    exact absurd h (by simp)
  · intro hlt
    have h := read_at_eval b hinv 0 offset hlt
    rw [(show min 0 (b.len - offset) = 0 from by omega)] at h
    rw [h, List.take_zero]
  · intro h
    by_contra hlt
    push_neg at hlt
    obtain ⟨vecs1, hwk, _, _⟩ := write_at_eval bm hinvm buf offsetm hlt
    rw [hwk] at h
    exact absurd h (by simp)
  · intro hlt
    obtain ⟨vecs1, hwk, _, _⟩ := write_at_eval bm hinvm ([] : List Byte) offsetm hlt
    rw [(show min ([] : List Byte).length (bm.len - offsetm) = 0 from by simp)] at hwk
    exact ⟨vecs1, hwk⟩

/-- C8 witness: a concrete buffer distinguishes the absent result from a
zero-byte present result. -/
theorem C8_absent_only_past_end_w :
    (IoVecBuffer.read_at ⟨[[1], [2, 3]], 3⟩ 2 1 = none ↔ (3 : Nat) ≤ 1) ∧
    (1 < 3 → IoVecBuffer.read_at ⟨[[1], [2, 3]], 3⟩ 0 1 = some (0, [])) ∧
    (IoVecBufferMut.write_at ⟨[[4, 5]], 2⟩ [6] 1 = none ↔ (2 : Nat) ≤ 1) ∧
    (1 < 2 → ∃ vecs1, IoVecBufferMut.write_at ⟨[[4, 5]], 2⟩ [] 1 = some (0, vecs1)) :=
  C8_absent_only_past_end ⟨[[1], [2, 3]], 3⟩ ⟨[[4, 5]], 2⟩ 2 1 [6] 1
    (by decide) (by decide)

/-- C9: empty and zero-length chains are accepted, produce a buffer of
total length 0, and every offset-bounded operation on a zero-length buffer
transfers nothing: the volatile loops make no endpoint call and return 0,
and `read_at`/`write_at` return the absent result. -/
theorem C9_empty_chain (m : GuestMem) (descs : List Descriptor) :
    (IoVecBuffer.from_descriptor_chain m [] = .ok ⟨[], 0⟩) ∧
    (IoVecBufferMut.from_descriptor_chain m [] = ([], .ok ⟨[], 0⟩)) ∧
    ((∀ d ∈ descs, d.writeOnly = false) → (∀ d ∈ descs, d.addr + d.len ≤ m.size) →
      (∀ d ∈ descs, d.len = 0) →
      ∃ b, IoVecBuffer.from_descriptor_chain m descs = .ok b ∧ b.len = 0) ∧
    (∀ {σ : Type} (ep : ByteSink σ) (s : σ) (b : IoVecBuffer) (offset len fuel : Nat),
      b.len = totalLen b.vecs → b.len = 0 →
      b.read_volatile_at ep s offset len fuel = some ⟨[], .ok 0, s⟩) ∧
    (∀ {σ : Type} (ep : ByteSrc σ) (s : σ) (bm : IoVecBufferMut)
        (offset len fuel : Nat),
      bm.len = totalLen bm.vecs → bm.len = 0 →
      bm.write_volatile_at ep s offset len fuel = some ⟨[], .ok 0, bm.vecs, s⟩) ∧
    (∀ (b : IoVecBuffer) (bufLen offset : Nat), b.len = 0 →
      b.read_at bufLen offset = none) ∧
    (∀ (bm : IoVecBufferMut) (buf : List Byte) (offset : Nat), bm.len = 0 →
      bm.write_at buf offset = none) := by
  refine ⟨rfl, rfl, ?_, ?_, ?_, ?_, ?_⟩
  · intro hw ht hlen
    obtain ⟨b, hb, _, _, hsum⟩ := from_descriptor_chain_ok m descs hw ht
    refine ⟨b, hb, ?_⟩
    rw [hsum]
    exact List.sum_eq_zero (by
      intro x hx
      obtain ⟨d, hd, rfl⟩ := List.mem_map.mp hx
      exact hlen d hd)
  · intro σ ep s b offset len fuel hinv h0
    exact readVolLoop_past_end ep fuel b.vecs offset len s 0 (by omega)
  · intro σ ep s bm offset len fuel hinv h0
    exact writeVolLoop_past_end ep fuel bm.vecs offset len s 0 (by omega)
  · intro b bufLen offset h0
    exact read_at_none b bufLen offset (by omega)
  · intro bm buf offset h0
    exact write_at_none bm buf offset (by omega)

/-- C9 witness: the buffer of the empty chain transfers nothing. -/
theorem C9_empty_chain_w :
    IoVecBuffer.read_volatile_at ⟨[], 0⟩ sliceSink ((5, []) : Nat × List Byte) 3 7 0 =
      some ⟨[], .ok 0, (5, [])⟩ :=
  (C9_empty_chain ⟨0, fun i => i⟩ []).2.2.2.1 sliceSink (5, []) ⟨[], 0⟩ 3 7 0
    (by decide) (by decide)

/-- C10: for any endpoint that never reports more bytes than the sub-range
it was given, a successful volatile transfer returns at most the requested
budget; with a zero budget or an offset at or past the end, the loop
returns 0 without any endpoint call. -/
theorem C10_budget_bound :
    (∀ {σ : Type} (ep : ByteSink σ), ep.WB →
      ∀ (b : IoVecBuffer) (s : σ) (offset len fuel : Nat) (out : RVOut σ) (t : Nat),
        b.read_volatile_at ep s offset len fuel = some out → out.res = .ok t →
        t ≤ len) ∧
    (∀ {σ : Type} (ep : ByteSrc σ) (bm : IoVecBufferMut) (s : σ)
        (offset len fuel : Nat) (out : WVOut σ) (t : Nat),
        bm.write_volatile_at ep s offset len fuel = some out → out.res = .ok t →
        t ≤ len) ∧
    (∀ {σ : Type} (ep : ByteSink σ) (b : IoVecBuffer) (s : σ) (offset fuel : Nat),
        b.read_volatile_at ep s offset 0 fuel = some ⟨[], .ok 0, s⟩) ∧
    (∀ {σ : Type} (ep : ByteSrc σ) (bm : IoVecBufferMut) (s : σ) (offset fuel : Nat),
        bm.write_volatile_at ep s offset 0 fuel = some ⟨[], .ok 0, bm.vecs, s⟩) ∧
    (∀ {σ : Type} (ep : ByteSink σ) (b : IoVecBuffer) (s : σ) (offset len fuel : Nat),
        b.len = totalLen b.vecs → b.len ≤ offset →
        b.read_volatile_at ep s offset len fuel = some ⟨[], .ok 0, s⟩) ∧
    (∀ {σ : Type} (ep : ByteSrc σ) (bm : IoVecBufferMut) (s : σ)
        (offset len fuel : Nat),
        bm.len = totalLen bm.vecs → bm.len ≤ offset →
        bm.write_volatile_at ep s offset len fuel = some ⟨[], .ok 0, bm.vecs, s⟩) := by
  refine ⟨?_, ?_, ?_, ?_, ?_, ?_⟩
  · intro σ ep hwb b s offset len fuel out t h ht
    have := readVolLoop_bound ep hwb fuel b.vecs offset len s 0 out t h ht
    omega
  · intro σ ep bm s offset len fuel out t h ht
    have := writeVolLoop_bound ep fuel bm.vecs offset len s 0 out t h ht
    omega
  · intro σ ep b s offset fuel
    exact readVolLoop_len_zero ep fuel b.vecs offset s 0
  · intro σ ep bm s offset fuel
    exact writeVolLoop_len_zero ep fuel bm.vecs offset s 0
  · intro σ ep b s offset len fuel hinv hpe
    exact readVolLoop_past_end ep fuel b.vecs offset len s 0 (by omega)
  · intro σ ep bm s offset len fuel hinv hpe
    exact writeVolLoop_past_end ep fuel bm.vecs offset len s 0 (by omega)

/-- C10 witness: the slice sink is well behaved; a 2-byte budget yields at
most 2 bytes. -/
theorem C10_budget_bound_w :
    (IoVecBuffer.read_volatile_at ⟨[[1, 2, 3]], 3⟩ sliceSink
        ((10, []) : Nat × List Byte) 0 2 0 =
      some ⟨[([1, 2], SinkResp.ok 2)], .ok 2, (8, [1, 2])⟩) ∧
    2 ≤ 2 :=
  ⟨by decide,
    C10_budget_bound.1 sliceSink sliceSink_WB ⟨[[1, 2, 3]], 3⟩ (10, []) 0 2 0
      ⟨[([1, 2], SinkResp.ok 2)], .ok 2, (8, [1, 2])⟩ 2 (by decide) (by decide)⟩

/-- C2 witness: a boundary-crossing read on a small two-segment buffer and
the 4x64 write scenario. -/
theorem C2_boundary_split_w :
    (IoVecBuffer.read_at ⟨[[10, 11], [20, 21]], 4⟩ 3 1 =
      some (min 3 (4 - 1),
        ((List.flatten [[10, 11], [20, 21]]).drop 1).take (min 3 (4 - 1)))) ∧
    (∃ vecs1, mutBuf4x64.write_at [1, 2, 3, 4, 5] 60 =
        some (min ([1, 2, 3, 4, 5] : List Byte).length (mutBuf4x64.len - 60),
          vecs1) ∧
      vecs1.map List.length = mutBuf4x64.vecs.map List.length ∧
      vecs1.flatten = mutBuf4x64.vecs.flatten.take 60 ++
        ([1, 2, 3, 4, 5] : List Byte).take
          (min ([1, 2, 3, 4, 5] : List Byte).length (mutBuf4x64.len - 60)) ++
        mutBuf4x64.vecs.flatten.drop
          (60 + min ([1, 2, 3, 4, 5] : List Byte).length (mutBuf4x64.len - 60))) ∧
    (mutBuf4x64.write_at [1, 2, 3, 4, 5] 60 =
      some (5, [List.replicate 60 0 ++ [1, 2, 3, 4], 5 :: List.replicate 63 0,
        zeros64, zeros64])) ∧
    (mutBuf4x64.write_at [1, 2, 3, 4, 5] 252 =
      some (4, [zeros64, zeros64, zeros64, List.replicate 60 0 ++ [1, 2, 3, 4]])) :=
  C2_boundary_split ⟨[[10, 11], [20, 21]], 4⟩ mutBuf4x64 3 1 [1, 2, 3, 4, 5] 60
    (by decide) (by decide) (by decide) (by decide)
